import Mathlib

/-!
# Verification of the Trinity tool-call parser

This development embeds `vllm/tool_parsers/trinity_tool_parser.py` — the
`TrinityToolParser` class, with its one-shot `extract_tool_calls` and its
streaming `extract_tool_calls_streaming` — as executable Lean definitions
over `List Char` (Python `str` is modeled as a list of characters), and
proves/refutes the specified properties.

Python primitives are modeled as follows:
* `str.replace(old, "")`   → `removeAll` (left-to-right, non-overlapping,
  no rescanning of already-produced output — exactly CPython's behavior);
* `sub in s`, `s.find(sub)`, slicing around the first occurrence
  → `splitOnce`, which returns the text before and after the *first*
  occurrence of the pattern;
* `s.rstrip("\n")`         → `rstripNl`;
* `re.findall` of the pattern `<tool_call>\s*(?P<json>.*?)\s*</tool_call>`
  (DOTALL) → `findAllTC`: repeatedly take the first start marker, then the
  first end marker after it, capturing the inner text with surrounding
  whitespace trimmed (the leading `\s*` is greedy and the trailing `\s*`
  is greedy under a lazy `.*?`, which is exactly "trim both ends");
* the `json` module → an executable JSON value type, parser and serializer
  (`Json`, `jsonParse`, `jsonDumps`); `jsonDumps` reproduces
  `json.dumps(x, ensure_ascii=False)` with its default separators
  `", "` / `": "` and insertion-order-preserving object fields.
  (JSON numbers are modeled as integers; floating-point payloads are
  outside the model.)
-/

/-- Python `str`, modeled as a list of characters. -/
abbrev Str := List Char

/-- The whitespace class of the block-scanning pattern (`\s`), ASCII part. -/
def isWs (c : Char) : Bool :=
  c = ' ' || c = '\t' || c = '\n' || c = '\r' || c = '\x0b' || c = '\x0c'

/-- `s.rstrip("\n")`: remove trailing newline characters. -/
def rstripNl (s : Str) : Str :=
  (s.reverse.dropWhile (fun c => c = '\n')).reverse

/-- Trim leading and trailing `\s`-whitespace (what the regex's greedy
`\s*` pair does to the lazy capture group). -/
def trimWs (s : Str) : Str :=
  ((s.dropWhile isWs).reverse.dropWhile isWs).reverse

/-- `A string consists of whitespace characters only.` -/
def wsOnly (s : Str) : Prop := ∀ c ∈ s, isWs c = true

instance (s : Str) : Decidable (wsOnly s) :=
  inferInstanceAs (Decidable (∀ c ∈ s, isWs c = true))

/-- Split a string at the *first* occurrence of `pat`: returns the text
before the occurrence and the text after it.  This models Python's
`pat in s` (`isSome`), `s.find(pat)` (length of the first component) and
the slices the parser takes around that index. -/
def splitOnce (pat : Str) (s : Str) : Option (Str × Str) :=
  if pat.isPrefixOf s then some ([], s.drop pat.length)
  else
    match s with
    | [] => none
    | c :: t => (splitOnce pat t).map (fun p => (c :: p.1, p.2))

/-- `pat` occurs somewhere in `s` as a contiguous substring. -/
def Occurs (pat s : Str) : Prop := ∃ a b, s = a ++ pat ++ b

/-- Fuel-indexed worker for `removeAll` (the fuel only serves structural
recursion; `s.length` is always enough, see `removeAllFuel_adequate`). -/
def removeAllFuel (pat : Str) : Nat → Str → Str
  | 0, s => s
  | _ + 1, [] => []
  | fuel + 1, c :: t =>
    if pat.isPrefixOf (c :: t) then removeAllFuel pat fuel ((c :: t).drop pat.length)
    else c :: removeAllFuel pat fuel t

/-- `s.replace(pat, "")`: remove every occurrence of `pat`, scanning left
to right without rescanning the output (CPython semantics). -/
def removeAll (pat : Str) (s : Str) : Str :=
  if pat = [] then s else removeAllFuel pat s.length s

/-! ## Basic lemmas about `splitOnce`, `Occurs`, `removeAll` -/

theorem removeAllFuel_irrel {pat : Str} (hpat : pat ≠ []) :
    ∀ (fuel fuel' : Nat) (s : Str), s.length ≤ fuel → s.length ≤ fuel' →
      removeAllFuel pat fuel s = removeAllFuel pat fuel' s := by
  intro fuel
  induction fuel with
  | zero =>
    intro fuel' s hs _
    have hnil : s = [] := List.eq_nil_of_length_eq_zero (Nat.le_zero.mp hs)
    subst hnil
    cases fuel' with
    | zero => rfl
    | succ f => rfl
  | succ fuel ih =>
    intro fuel' s hs hs'
    cases s with
    | nil =>
      cases fuel' with
      | zero => rfl
      | succ f => rfl
    | cons c t =>
      cases fuel' with
      | zero => simp at hs'
      | succ f =>
        show (if pat.isPrefixOf (c :: t) then
            removeAllFuel pat fuel ((c :: t).drop pat.length)
          else c :: removeAllFuel pat fuel t) =
          (if pat.isPrefixOf (c :: t) then
            removeAllFuel pat f ((c :: t).drop pat.length)
          else c :: removeAllFuel pat f t)
        have hlen : ((c :: t).drop pat.length).length ≤ t.length := by
          have hp : 0 < pat.length := List.length_pos.mpr hpat
          simp only [List.length_drop, List.length_cons]
          omega
        simp only [List.length_cons] at hs hs'
        by_cases hp : pat.isPrefixOf (c :: t)
        · rw [if_pos hp, if_pos hp]
          exact ih f _ (by omega) (by omega)
        · rw [if_neg hp, if_neg hp]
          rw [ih f t (by omega) (by omega)]

theorem removeAll_nil (pat : Str) : removeAll pat [] = [] := by
  unfold removeAll
  split
  · rfl
  · rfl

theorem removeAll_cons {pat : Str} (hpat : pat ≠ []) (c : Char) (t : Str) :
    removeAll pat (c :: t) =
      if pat.isPrefixOf (c :: t) then removeAll pat ((c :: t).drop pat.length)
      else c :: removeAll pat t := by
  have hp0 : 0 < pat.length := List.length_pos.mpr hpat
  have hlen : ((c :: t).drop pat.length).length ≤ t.length := by
    simp only [List.length_drop, List.length_cons]
    omega
  simp only [removeAll, if_neg hpat]
  show (if pat.isPrefixOf (c :: t) then
      removeAllFuel pat t.length ((c :: t).drop pat.length)
    else c :: removeAllFuel pat t.length t) = _
  by_cases hp : pat.isPrefixOf (c :: t)
  · rw [if_pos hp, if_pos hp]
    exact removeAllFuel_irrel hpat t.length _ _ hlen (le_refl _)
  · rw [if_neg hp, if_neg hp]

theorem splitOnce_some_eq {pat s a b : Str}
    (h : splitOnce pat s = some (a, b)) : s = a ++ pat ++ b := by
  induction s generalizing a b with
  | nil =>
    rw [splitOnce] at h
    by_cases hp : pat.isPrefixOf ([] : Str)
    · have hpat : pat = [] := List.prefix_nil.mp (List.isPrefixOf_iff_prefix.mp hp)
      subst hpat
      rw [if_pos hp] at h
      injection h with h0
      injection h0 with h1 h2
      subst h1
      subst h2
      simp
    · rw [if_neg hp] at h
      simp at h
  | cons c t ih =>
    rw [splitOnce] at h
    by_cases hp : pat.isPrefixOf (c :: t)
    · rw [if_pos hp] at h
      injection h with h0
      injection h0 with h1 h2
      subst h1
      subst h2
      obtain ⟨r, hr⟩ := List.isPrefixOf_iff_prefix.mp hp
      rw [← hr]
      simp [List.drop_left]
    · rw [if_neg hp] at h
      cases h' : splitOnce pat t with
      | none => rw [h'] at h; simp at h
      | some p =>
        obtain ⟨p1, p2⟩ := p
        rw [h'] at h
        simp only [Option.map_some'] at h
        injection h with h0
        injection h0 with h1 h2
        subst h1
        subst h2
        simp [ih h']

theorem splitOnce_none_of_not_occurs {pat s : Str}
    (h : ¬ Occurs pat s) : splitOnce pat s = none := by
  induction s with
  | nil =>
    unfold splitOnce
    by_cases hp : pat.isPrefixOf ([] : Str)
    · exfalso
      have hpat : pat = [] := List.prefix_nil.mp (List.isPrefixOf_iff_prefix.mp hp)
      exact h ⟨[], [], by simp [hpat]⟩
    · simp [hp]
  | cons c t ih =>
    unfold splitOnce
    by_cases hp : pat.isPrefixOf (c :: t)
    · exfalso
      obtain ⟨r, hr⟩ := List.isPrefixOf_iff_prefix.mp hp
      exact h ⟨[], r, by simp [hr]⟩
    · rw [if_neg hp]
      have ht : ¬ Occurs pat t := by
        rintro ⟨a, b, rfl⟩
        exact h ⟨c :: a, b, by simp⟩
      simp [ih ht]

theorem occurs_of_splitOnce_some {pat s a b : Str}
    (h : splitOnce pat s = some (a, b)) : Occurs pat s :=
  ⟨a, b, splitOnce_some_eq h⟩

theorem splitOnce_ne_none_of_parts (pat a b : Str) :
    splitOnce pat (a ++ pat ++ b) ≠ none := by
  induction a with
  | nil =>
    unfold splitOnce
    have hp : pat.isPrefixOf (([] : Str) ++ pat ++ b) := by
      simp [List.isPrefixOf_iff_prefix, List.prefix_append]
    rw [if_pos hp]
    simp
  | cons c a' ih =>
    unfold splitOnce
    by_cases hp : pat.isPrefixOf (c :: a' ++ pat ++ b)
    · rw [if_pos hp]
      simp
    · rw [if_neg hp]
      show Option.map (fun p => (c :: p.1, p.2)) (splitOnce pat (a' ++ pat ++ b)) ≠ none
      cases h' : splitOnce pat (a' ++ pat ++ b) with
      | none => exact absurd h' ih
      | some p => simp

theorem splitOnce_isSome_of_occurs {pat s : Str}
    (h : Occurs pat s) : (splitOnce pat s).isSome := by
  rcases h with ⟨a, b, rfl⟩
  cases h' : splitOnce pat (a ++ pat ++ b) with
  | none => exact absurd h' (splitOnce_ne_none_of_parts pat a b)
  | some p => simp

theorem splitOnce_none_iff {pat s : Str} :
    splitOnce pat s = none ↔ ¬ Occurs pat s := by
  constructor
  · intro h hocc
    have := splitOnce_isSome_of_occurs hocc
    simp [h] at this
  · exact splitOnce_none_of_not_occurs

theorem occurs_length_le {pat t : Str} (h : Occurs pat t) : pat.length ≤ t.length := by
  obtain ⟨a, b, rfl⟩ := h
  simp
  omega

theorem occurs_append_left {p x y : Str} (h : Occurs p x) : Occurs p (x ++ y) := by
  obtain ⟨a, b, rfl⟩ := h
  exact ⟨a, b ++ y, by simp⟩

theorem occurs_append_right {p x y : Str} (h : Occurs p y) : Occurs p (x ++ y) := by
  obtain ⟨a, b, rfl⟩ := h
  exact ⟨x ++ a, b, by simp⟩

theorem occurs_head_mem {p s : Str} (h : Occurs p s) {c : Char} {p' : Str}
    (hp : p = c :: p') : c ∈ s := by
  obtain ⟨a, b, rfl⟩ := h
  subst hp
  simp

/-- A helper: from `a ++ x = b ++ y` with `a` no longer than `b`, `a` is a
prefix of `b`. -/
theorem prefix_of_append_eq {a x b y : Str} (h : a ++ x = b ++ y)
    (hl : a.length ≤ b.length) : a <+: b := by
  have ha : a = (b ++ y).take a.length := by
    rw [← h, List.take_left]
  rw [List.take_append_eq_append_take, Nat.sub_eq_zero_of_le hl, List.take_zero,
    List.append_nil] at ha
  rw [ha]
  exact List.take_prefix a.length b

/-- A pattern has no nontrivial self-overlap: no proper nonempty suffix is
also a prefix.  Both markers of the parser satisfy this (their only `<` is
at position 0), which rules out occurrences straddling a known boundary. -/
def OverlapFree (p : Str) : Bool :=
  (List.range p.length).all fun k => k == 0 || !((p.drop k).isPrefixOf p)

theorem overlapFree_elim {p : Str} (hof : OverlapFree p = true) {k : Nat}
    (hk0 : 0 < k) (hk : k < p.length) : ¬ p.drop k <+: p := by
  intro hpre
  have hall := List.all_eq_true.mp hof k (List.mem_range.mpr hk)
  have hne : (k == 0) = false := by
    simp [Nat.pos_iff_ne_zero.mp hk0]
  rw [hne, Bool.false_or, Bool.not_eq_true'] at hall
  rw [List.isPrefixOf_iff_prefix.mpr hpre] at hall
  cases hall

/-- The first occurrence of an overlap-free pattern after a clean prefix
(one that contains no occurrence) is exactly at the marked position. -/
theorem splitOnce_first {p m t : Str} (hp : p ≠ []) (hof : OverlapFree p = true)
    (hm : ¬ Occurs p m) : splitOnce p (m ++ p ++ t) = some (m, t) := by
  induction m with
  | nil =>
    unfold splitOnce
    have hpre : p.isPrefixOf (([] : Str) ++ p ++ t) := by
      simp [List.isPrefixOf_iff_prefix, List.prefix_append]
    rw [if_pos hpre]
    simp [List.drop_left]
  | cons c m' ih =>
    unfold splitOnce
    by_cases hpre : p.isPrefixOf (c :: m' ++ p ++ t)
    · exfalso
      obtain ⟨r, hr⟩ := List.isPrefixOf_iff_prefix.mp hpre
      have hr' : p ++ r = (c :: m') ++ (p ++ t) := hr.trans (List.append_assoc _ _ _)
      by_cases hlen : p.length ≤ (c :: m').length
      · apply hm
        obtain ⟨q, hq⟩ := prefix_of_append_eq hr' hlen
        exact ⟨[], q, by rw [← hq]; simp⟩
      · push_neg at hlen
        apply overlapFree_elim hof (k := (c :: m').length) (by simp) hlen
        have hdrop := congrArg (List.drop (c :: m').length) hr'
        rw [List.drop_append_eq_append_drop, List.drop_append_eq_append_drop,
          Nat.sub_eq_zero_of_le (le_of_lt hlen), List.drop_zero, List.drop_length,
          Nat.sub_self, List.drop_zero, List.nil_append] at hdrop
        exact prefix_of_append_eq hdrop (by simp [List.length_drop])
    · rw [if_neg hpre]
      show Option.map (fun q => (c :: q.1, q.2)) (splitOnce p (m' ++ p ++ t)) =
        some (c :: m', t)
      have hm' : ¬ Occurs p m' := by
        rintro ⟨a, b, rfl⟩
        exact hm ⟨c :: a, b, by simp⟩
      rw [ih hm']
      rfl

theorem splitOnce_min {pat s a b : Str} (h : splitOnce pat s = some (a, b)) :
    ∀ a' b', s = a' ++ pat ++ b' → a.length ≤ a'.length := by
  induction s generalizing a b with
  | nil =>
    intro a' b' _
    have heq := splitOnce_some_eq h
    have ha : a = [] := by
      cases a with
      | nil => rfl
      | cons x xs => simp at heq
    simp [ha]
  | cons c t ih =>
    intro a' b' he
    rw [splitOnce] at h
    by_cases hp : pat.isPrefixOf (c :: t)
    · rw [if_pos hp] at h
      injection h with h0
      injection h0 with h1 h2
      subst h1
      simp
    · rw [if_neg hp] at h
      cases h' : splitOnce pat t with
      | none => rw [h'] at h; simp at h
      | some p =>
        obtain ⟨p1, p2⟩ := p
        rw [h'] at h
        simp only [Option.map_some'] at h
        injection h with h0
        injection h0 with h1 h2
        subst h1
        cases a' with
        | nil =>
          exfalso
          apply hp
          rw [List.isPrefixOf_iff_prefix]
          exact ⟨b', by simpa using he.symm⟩
        | cons c' a'' =>
          simp only [List.cons_append] at he
          injection he with he1 he2
          have := ih h' a'' b' he2
          simp only [List.length_cons]
          omega

theorem splitOnce_append_right {pat s a b : Str}
    (h : splitOnce pat s = some (a, b)) (d : Str) :
    splitOnce pat (s ++ d) = some (a, b ++ d) := by
  induction s generalizing a b with
  | nil =>
    unfold splitOnce at h
    by_cases hp : pat.isPrefixOf ([] : Str)
    · have hpat : pat = [] := List.prefix_nil.mp (List.isPrefixOf_iff_prefix.mp hp)
      subst hpat
      rw [if_pos hp] at h
      injection h with h0
      injection h0 with h1 h2
      subst h1
      subst h2
      unfold splitOnce
      have hp' : ([] : Str).isPrefixOf ([] ++ d) := by
        simp [List.isPrefixOf_iff_prefix]
      rw [if_pos hp']
      simp
    · rw [if_neg hp] at h
      simp at h
  | cons c t ih =>
    rw [splitOnce] at h
    by_cases hp : pat.isPrefixOf (c :: t)
    · rw [if_pos hp] at h
      injection h with h0
      injection h0 with h1 h2
      subst h1
      subst h2
      obtain ⟨r, hr⟩ := List.isPrefixOf_iff_prefix.mp hp
      unfold splitOnce
      have hp' : pat.isPrefixOf ((c :: t) ++ d) := by
        rw [List.isPrefixOf_iff_prefix]
        exact ⟨r ++ d, by rw [← List.append_assoc, hr]⟩
      rw [if_pos hp']
      have hlen : pat.length ≤ (c :: t).length := by
        have := congrArg List.length hr
        simp at this
        simp
        omega
      rw [List.drop_append_eq_append_drop, Nat.sub_eq_zero_of_le hlen,
        List.drop_zero]
    · rw [if_neg hp] at h
      cases h' : splitOnce pat t with
      | none => rw [h'] at h; simp at h
      | some p =>
        obtain ⟨p1, p2⟩ := p
        rw [h'] at h
        simp only [Option.map_some'] at h
        injection h with h0
        injection h0 with h1 h2
        subst h1
        subst h2
        have hocc : Occurs pat t := occurs_of_splitOnce_some h'
        unfold splitOnce
        have hp' : ¬ pat.isPrefixOf ((c :: t) ++ d) := by
          intro hcon
          apply hp
          obtain ⟨r, hr⟩ := List.isPrefixOf_iff_prefix.mp hcon
          rw [List.isPrefixOf_iff_prefix]
          exact prefix_of_append_eq hr
            (le_trans (occurs_length_le hocc) (by simp))
        rw [if_neg hp']
        show Option.map (fun q => (c :: q.1, q.2)) (splitOnce pat (t ++ d)) =
          some (c :: p1, p2 ++ d)
        rw [ih h']
        rfl

/-- Where can a pattern occur in a concatenation: wholly in the left part,
wholly in the right part, or straddling the boundary (the boundary cuts the
pattern at some interior position `k`). -/
theorem occurs_append_cases {p x y : Str} (h : Occurs p (x ++ y)) :
    Occurs p x ∨ Occurs p y ∨
      ∃ k a b, 0 < k ∧ k < p.length ∧ x = a ++ p.take k ∧ y = p.drop k ++ b := by
  obtain ⟨a, b, hab⟩ := h
  by_cases h1 : a.length + p.length ≤ x.length
  · left
    have hx : x = (a ++ p ++ b).take x.length := by
      rw [← hab, List.take_left]
    rw [List.take_append_eq_append_take,
      List.take_of_length_le (l := a ++ p) (by simp; omega)] at hx
    exact ⟨a, _, hx⟩
  · by_cases h2 : x.length ≤ a.length
    · right; left
      have hy : y = (a ++ p ++ b).drop x.length := by
        rw [← hab, List.drop_left]
      rw [List.drop_append_eq_append_drop, List.drop_append_eq_append_drop,
        Nat.sub_eq_zero_of_le h2, List.drop_zero,
        Nat.sub_eq_zero_of_le (by simp; omega), List.drop_zero] at hy
      exact ⟨a.drop x.length, b, hy⟩
    · right; right
      push_neg at h1
      push_neg at h2
      have hb0 : x.length - (a ++ p).length = 0 := by
        simp only [List.length_append]
        omega
      refine ⟨x.length - a.length, a, b, by omega, by omega, ?_, ?_⟩
      · have hx : x = (a ++ p ++ b).take x.length := by
          rw [← hab, List.take_left]
        rw [List.take_append_eq_append_take, List.take_append_eq_append_take,
          List.take_of_length_le (show a.length ≤ x.length by omega),
          hb0, List.take_zero, List.append_nil] at hx
        exact hx
      · have hy : y = (a ++ p ++ b).drop x.length := by
          rw [← hab, List.drop_left]
        rw [List.drop_append_eq_append_drop, List.drop_append_eq_append_drop,
          List.drop_eq_nil_of_le (show a.length ≤ x.length by omega),
          List.nil_append, hb0, List.drop_zero] at hy
        exact hy

/-- Removing a pattern that does not occur is the identity. -/
theorem removeAll_of_not_occurs {pat s : Str} (h : ¬ Occurs pat s) :
    removeAll pat s = s := by
  have hpat : pat ≠ [] := by
    rintro rfl
    exact h ⟨[], s, rfl⟩
  induction s with
  | nil => exact removeAll_nil pat
  | cons c t ih =>
    rw [removeAll_cons hpat]
    by_cases hp : pat.isPrefixOf (c :: t)
    · exfalso
      obtain ⟨r, hr⟩ := List.isPrefixOf_iff_prefix.mp hp
      exact h ⟨[], r, by rw [← hr]; simp⟩
    · rw [if_neg hp]
      have ht : ¬ Occurs pat t := by
        rintro ⟨a, b, rfl⟩
        exact h ⟨c :: a, b, by simp⟩
      rw [ih ht]

/-! ## JSON values (model of the Python `json` module)

JSON numbers are modeled as integers; floating-point payloads are outside
the model.  `\uXXXX` escapes are decoded without surrogate-pair pairing.
Duplicate object keys follow Python `dict` semantics: the key keeps its
first position, the last value wins (`objInsert`). -/

inductive Json where
  | null : Json
  | bool (b : Bool) : Json
  | num (n : Int) : Json
  | str (s : Str) : Json
  | arr (elems : List Json) : Json
  | obj (fields : List (Str × Json)) : Json

/-- `dict.get`-style lookup (first matching key). -/
def lookupField (fs : List (Str × Json)) (k : Str) : Option Json :=
  match fs with
  | [] => none
  | (k', v) :: t => if k' = k then some v else lookupField t k

/-- Python `dict` insertion: overwrite in place if present, else append. -/
def objInsert (fs : List (Str × Json)) (k : Str) (v : Json) : List (Str × Json) :=
  match fs with
  | [] => [(k, v)]
  | (k', v') :: t => if k' = k then (k', v) :: t else (k', v') :: objInsert t k v

/-- JSON-document whitespace (`[ \t\n\r]`, as in Python's json module). -/
def isJsonWs (c : Char) : Bool :=
  c = ' ' || c = '\t' || c = '\n' || c = '\r'

def skipWs (s : Str) : Str := s.dropWhile isJsonWs

def hexVal (c : Char) : Option Nat :=
  if '0' ≤ c && c ≤ '9' then some (c.toNat - 48)
  else if 'a' ≤ c && c ≤ 'f' then some (c.toNat - 87)
  else if 'A' ≤ c && c ≤ 'F' then some (c.toNat - 55)
  else none

/-- Parse the body of a JSON string after the opening quote; returns the
decoded content and the rest after the closing quote. -/
def parseStringBody : Str → Option (Str × Str)
  | [] => none
  | '"' :: rest => some ([], rest)
  | '\\' :: 'u' :: c1 :: c2 :: c3 :: c4 :: rest =>
    match hexVal c1, hexVal c2, hexVal c3, hexVal c4, parseStringBody rest with
    | some h1, some h2, some h3, some h4, some (content, rest') =>
      some (Char.ofNat (((h1 * 16 + h2) * 16 + h3) * 16 + h4) :: content, rest')
    | _, _, _, _, _ => none
  | '\\' :: e :: rest =>
    match
      (if e = '"' then some '"'
       else if e = '\\' then some '\\'
       else if e = '/' then some '/'
       else if e = 'b' then some '\x08'
       else if e = 'f' then some '\x0c'
       else if e = 'n' then some '\n'
       else if e = 'r' then some '\r'
       else if e = 't' then some '\t'
       else none) with
    | some c =>
      match parseStringBody rest with
      | some (content, rest') => some (c :: content, rest')
      | none => none
    | none => none
  | c :: rest =>
    if c.toNat < 32 then none
    else
      match parseStringBody rest with
      | some (content, rest') => some (c :: content, rest')
      | none => none

def isDigit (c : Char) : Bool := '0' ≤ c && c ≤ '9'

def digitsToNat (ds : Str) : Nat :=
  ds.foldl (fun acc c => acc * 10 + (c.toNat - 48)) 0

/-- Parse a JSON number (integers only; a fractional part or exponent is
outside the model and fails). -/
def parseNumber (s : Str) : Option (Json × Str) :=
  let neg := match s with | '-' :: _ => true | _ => false
  let s1 := match s with | '-' :: t => t | _ => s
  let ds := s1.takeWhile isDigit
  let rest := s1.dropWhile isDigit
  if ds = [] then none
  else if 1 < ds.length ∧ ds.headD '0' = '0' then none
  else
    match rest with
    | '.' :: _ => none
    | 'e' :: _ => none
    | 'E' :: _ => none
    | _ =>
      let n : Int := Int.ofNat (digitsToNat ds)
      some (Json.num (if neg then -n else n), rest)

mutual

/-- Recursive-descent JSON value parser (fuel-indexed; `jsonParse` supplies
ample fuel: every nesting level of a document consumes at least one
character). -/
def parseValue : Nat → Str → Option (Json × Str)
  | 0, _ => none
  | fuel + 1, s =>
    match skipWs s with
    | 'n' :: 'u' :: 'l' :: 'l' :: rest => some (.null, rest)
    | 't' :: 'r' :: 'u' :: 'e' :: rest => some (.bool true, rest)
    | 'f' :: 'a' :: 'l' :: 's' :: 'e' :: rest => some (.bool false, rest)
    | '"' :: rest =>
      match parseStringBody rest with
      | some (content, rest') => some (.str content, rest')
      | none => none
    | '[' :: rest =>
      match skipWs rest with
      | ']' :: r => some (.arr [], r)
      | s2 =>
        match parseArrayElems fuel s2 with
        | some (vs, r) => some (.arr vs, r)
        | none => none
    | '{' :: rest =>
      match skipWs rest with
      | '}' :: r => some (.obj [], r)
      | s2 =>
        match parseObjFields fuel s2 with
        | some (fs, r) =>
          some (.obj (fs.foldl (fun acc kv => objInsert acc kv.1 kv.2) []), r)
        | none => none
    | s' => parseNumber s'

def parseArrayElems : Nat → Str → Option (List Json × Str)
  | 0, _ => none
  | fuel + 1, s =>
    match parseValue fuel s with
    | some (v, r) =>
      match skipWs r with
      | ',' :: r2 =>
        match parseArrayElems fuel r2 with
        | some (vs, r3) => some (v :: vs, r3)
        | none => none
      | ']' :: r2 => some ([v], r2)
      | _ => none
    | none => none

def parseObjFields : Nat → Str → Option (List (Str × Json) × Str)
  | 0, _ => none
  | fuel + 1, s =>
    match skipWs s with
    | '"' :: rest =>
      match parseStringBody rest with
      | some (k, r1) =>
        match skipWs r1 with
        | ':' :: r2 =>
          match parseValue fuel r2 with
          | some (v, r3) =>
            match skipWs r3 with
            | ',' :: r4 =>
              match parseObjFields fuel r4 with
              | some (fs, r5) => some ((k, v) :: fs, r5)
              | none => none
            | '}' :: r4 => some ([(k, v)], r4)
            | _ => none
          | none => none
        | _ => none
      | none => none
    | _ => none

end

/-- `json.loads`: parse a complete document (trailing whitespace only). -/
def jsonParse (s : Str) : Option Json :=
  match parseValue (s.length + 1) s with
  | some (v, rest) => if skipWs rest = [] then some v else none
  | none => none

def hexDigit (n : Nat) : Char :=
  if n < 10 then Char.ofNat (48 + n) else Char.ofNat (87 + n)

/-- Escape one character as `json.dumps(·, ensure_ascii=False)` does. -/
def escapeChar (c : Char) : Str :=
  if c = '"' then ['\\', '"']
  else if c = '\\' then ['\\', '\\']
  else if c = '\n' then ['\\', 'n']
  else if c = '\t' then ['\\', 't']
  else if c = '\r' then ['\\', 'r']
  else if c = '\x08' then ['\\', 'b']
  else if c = '\x0c' then ['\\', 'f']
  else if c.toNat < 32 then
    ['\\', 'u', '0', '0', hexDigit (c.toNat / 16), hexDigit (c.toNat % 16)]
  else [c]

def quoteStr (s : Str) : Str :=
  '"' :: s.foldr (fun c acc => escapeChar c ++ acc) ['"']

mutual

/-- `json.dumps(x, ensure_ascii=False)` with the default separators
`", "` and `": "`; object fields keep their stored (insertion) order. -/
def jsonDumps : Json → Str
  | .null => "null".data
  | .bool true => "true".data
  | .bool false => "false".data
  | .num n => (toString n).data
  | .str s => quoteStr s
  | .arr [] => "[]".data
  | .arr (x :: xs) => '[' :: (jsonDumps x ++ dumpsElemsRest xs ++ [']'])
  | .obj [] => ['{', '}']
  | .obj ((k, v) :: fs) =>
    '{' :: (quoteStr k ++ ": ".data ++ jsonDumps v ++ dumpsFieldsRest fs ++ ['}'])

/-- The remaining array elements, each preceded by the item separator. -/
def dumpsElemsRest : List Json → Str
  | [] => []
  | x :: xs => ", ".data ++ jsonDumps x ++ dumpsElemsRest xs

/-- The remaining object fields, each preceded by the item separator. -/
def dumpsFieldsRest : List (Str × Json) → Str
  | [] => []
  | (k, v) :: fs =>
    ", ".data ++ quoteStr k ++ ": ".data ++ jsonDumps v ++ dumpsFieldsRest fs

end

mutual

/-- `Two values are equal as JSON values`: object fields compare as
unordered key→value maps, arrays compare pointwise. -/
def jsonEquiv : Json → Json → Bool
  | .null, b => match b with | .null => true | _ => false
  | .bool a, b => match b with | .bool b' => a == b' | _ => false
  | .num a, b => match b with | .num b' => a == b' | _ => false
  | .str a, b => match b with | .str b' => a == b' | _ => false
  | .arr xs, b => match b with | .arr ys => arrEquiv xs ys | _ => false
  | .obj fs, b =>
    match b with
    | .obj gs => fs.length == gs.length && fieldsSub fs gs
    | _ => false

/-- Pointwise array equivalence. -/
def arrEquiv : List Json → List Json → Bool
  | [], ys => match ys with | [] => true | _ => false
  | x :: xs, ys =>
    match ys with
    | y :: ys' => jsonEquiv x y && arrEquiv xs ys'
    | _ => false

/-- Every field of the first list has an equivalent binding in the second. -/
def fieldsSub : List (Str × Json) → List (Str × Json) → Bool
  | [], _ => true
  | (k, v) :: t, gs =>
    (match lookupField gs k with
     | some w => jsonEquiv v w
     | none => false) && fieldsSub t gs

end

/-! ## The parser (embedding of `TrinityToolParser`) -/

/-- `self.tool_call_start_token` (also `self.tool_calls_start_token`). -/
def tool_call_start_token : Str := "<tool_call>".data

/-- `self.tool_call_end_token`. -/
def tool_call_end_token : Str := "</tool_call>".data

/-- The narration start delimiter literal. -/
def think_open_token : Str := "<think>".data

/-- The narration end delimiter literal. -/
def think_close_token : Str := "</think>".data

theorem tool_call_start_token_length : tool_call_start_token.length = 11 := rfl

theorem tool_call_end_token_length : tool_call_end_token.length = 12 := rfl

/-- `_strip_think_tags`:
`text.replace("<think>", "").replace("</think>", "")`. -/
def strip_think_tags (text : Str) : Str :=
  removeAll think_close_token (removeAll think_open_token text)

/-- `self.tool_call_regex.findall(...)` for the DOTALL pattern
`<tool_call>\s*(?P<json>.*?)\s*</tool_call>`: each match starts at the
first remaining start marker, ends at the first end marker after it, and
the lazy capture between the two greedy `\s*` groups is the inner text
with surrounding whitespace trimmed; scanning resumes after the match. -/
def findAllTCFuel : Nat → Str → List Str
  | 0, _ => []
  | fuel + 1, s =>
    match splitOnce tool_call_start_token s with
    | none => []
    | some (_, rest1) =>
      match splitOnce tool_call_end_token rest1 with
      | none => []
      | some (inner, rest2) => trimWs inner :: findAllTCFuel fuel rest2

def findAllTC (s : Str) : List Str := findAllTCFuel s.length s

theorem findAllTCFuel_irrel :
    ∀ (fuel fuel' : Nat) (s : Str), s.length ≤ fuel → s.length ≤ fuel' →
      findAllTCFuel fuel s = findAllTCFuel fuel' s := by
  intro fuel
  induction fuel with
  | zero =>
    intro fuel' s hs _
    have hnil : s = [] := List.eq_nil_of_length_eq_zero (Nat.le_zero.mp hs)
    subst hnil
    cases fuel' with
    | zero => rfl
    | succ f => rfl
  | succ fuel ih =>
    intro fuel' s hs hs'
    cases fuel' with
    | zero =>
      have hnil : s = [] := List.eq_nil_of_length_eq_zero (Nat.le_zero.mp hs')
      subst hnil
      rfl
    | succ f =>
      show (match splitOnce tool_call_start_token s with
        | none => []
        | some (_, rest1) =>
          match splitOnce tool_call_end_token rest1 with
          | none => []
          | some (inner, rest2) => trimWs inner :: findAllTCFuel fuel rest2) =
        (match splitOnce tool_call_start_token s with
        | none => []
        | some (_, rest1) =>
          match splitOnce tool_call_end_token rest1 with
          | none => []
          | some (inner, rest2) => trimWs inner :: findAllTCFuel f rest2)
      cases h1 : splitOnce tool_call_start_token s with
      | none => rfl
      | some p1 =>
        obtain ⟨pre, rest1⟩ := p1
        show (match splitOnce tool_call_end_token rest1 with
          | none => []
          | some (inner, rest2) => trimWs inner :: findAllTCFuel fuel rest2) =
          (match splitOnce tool_call_end_token rest1 with
          | none => []
          | some (inner, rest2) => trimWs inner :: findAllTCFuel f rest2)
        cases h2 : splitOnce tool_call_end_token rest1 with
        | none => rfl
        | some p2 =>
          obtain ⟨inner, rest2⟩ := p2
          have e1 := congrArg List.length (splitOnce_some_eq h1)
          have e2 := congrArg List.length (splitOnce_some_eq h2)
          simp only [List.length_append, tool_call_start_token_length,
            tool_call_end_token_length] at e1 e2
          show trimWs inner :: findAllTCFuel fuel rest2 =
            trimWs inner :: findAllTCFuel f rest2
          rw [ih f rest2 (by omega) (by omega)]

/-- The recurrence the well-founded scan satisfies: one capture per
start/end marker pair, resuming after the end marker. -/
theorem findAllTC_eq (s : Str) :
    findAllTC s =
      match splitOnce tool_call_start_token s with
      | none => []
      | some (_, rest1) =>
        match splitOnce tool_call_end_token rest1 with
        | none => []
        | some (inner, rest2) => trimWs inner :: findAllTC rest2 := by
  cases s with
  | nil => rfl
  | cons c t =>
    show findAllTCFuel (t.length + 1) (c :: t) = _
    show (match splitOnce tool_call_start_token (c :: t) with
      | none => []
      | some (_, rest1) =>
        match splitOnce tool_call_end_token rest1 with
        | none => []
        | some (inner, rest2) => trimWs inner :: findAllTCFuel t.length rest2) = _
    cases h1 : splitOnce tool_call_start_token (c :: t) with
    | none => rfl
    | some p1 =>
      obtain ⟨pre, rest1⟩ := p1
      show (match splitOnce tool_call_end_token rest1 with
        | none => []
        | some (inner, rest2) => trimWs inner :: findAllTCFuel t.length rest2) =
        (match splitOnce tool_call_end_token rest1 with
        | none => []
        | some (inner, rest2) => trimWs inner :: findAllTC rest2)
      cases h2 : splitOnce tool_call_end_token rest1 with
      | none => rfl
      | some p2 =>
        obtain ⟨inner, rest2⟩ := p2
        have e1 := congrArg List.length (splitOnce_some_eq h1)
        have e2 := congrArg List.length (splitOnce_some_eq h2)
        simp only [List.length_append, tool_call_start_token_length,
          tool_call_end_token_length, List.length_cons] at e1 e2
        show trimWs inner :: findAllTCFuel t.length rest2 =
          trimWs inner :: findAllTCFuel rest2.length rest2
        rw [findAllTCFuel_irrel t.length rest2.length rest2 (by omega) (le_refl _)]

structure FunctionCall where
  name : Str
  arguments : Str
deriving DecidableEq

structure ToolCall where
  function : FunctionCall
deriving DecidableEq

structure ExtractedToolCallInformation where
  tools_called : Bool
  tool_calls : List ToolCall
  content : Option Str
deriving DecidableEq

/-- The loop body of `extract_tool_calls` for one capture:
`json.loads`, then `.get("arguments", {})` / `.get("name", "")` and
`json.dumps` of the arguments.  A payload that is not a JSON object
(`.get` raises `AttributeError`) or whose `name` value is not a string
(the `FunctionCall` model rejects it) surfaces as the exception path,
i.e. `none`. -/
def buildCall (tool_call_json : Str) : Option ToolCall :=
  match jsonParse tool_call_json with
  | none => none
  | some (Json.obj fields) =>
    let args := (lookupField fields "arguments".data).getD (Json.obj [])
    let args_str := jsonDumps args
    match (lookupField fields "name".data).getD (Json.str []) with
    | Json.str name => some ⟨⟨name, args_str⟩⟩
    | _ => none
  | some _ => none

/-- The whole `for tool_call_json in tool_call_json_list` loop inside the
`try`: any failure aborts the entire list (the `except` path). -/
def buildCalls : List Str → Option (List ToolCall)
  | [] => some []
  | j :: rest =>
    match buildCall j, buildCalls rest with
    | some c, some cs => some (c :: cs)
    | _, _ => none

/-- `extract_tool_calls` (lines 70–111): strip narration delimiters; if no
start marker is present return a no-calls result carrying the stripped
text; otherwise scan all blocks, build the call list (any failure
degrading to the no-calls result with the stripped text), and return the
text before the first start marker, with trailing newlines trimmed, as
content (`None` if empty). -/
def extract_tool_calls (model_output : Str) : ExtractedToolCallInformation :=
  let stripped_output := strip_think_tags model_output
  match splitOnce tool_call_start_token stripped_output with
  | none => ⟨false, [], some stripped_output⟩
  | some (pre, _) =>
    match buildCalls (findAllTC stripped_output) with
    | none => ⟨false, [], some stripped_output⟩
    | some tool_calls =>
      let content := rstripNl pre
      ⟨true, tool_calls, if content = [] then none else some content⟩

/-! ## The streaming state machine -/

structure DeltaFunctionCall where
  name : Str
  arguments : Str
deriving DecidableEq

structure DeltaToolCall where
  index : Int
  function : DeltaFunctionCall
deriving DecidableEq

structure DeltaMessage where
  content : Option Str
  tool_calls : List DeltaToolCall
deriving DecidableEq

/-- The per-session mutable fields of the parser object.
`prev_tool_call_arr` entries model the Python dicts
`{"name": ..., "arguments": ...}` as name/arguments pairs, with the empty
placeholder dict `{}` modeled as `([], Json.obj [])`. -/
structure StreamState where
  buffer : Str
  current_tool_id : Int
  prev_tool_call_arr : List (Str × Json)
  streamed_args_for_tool : List Str

/-- The state of a freshly constructed parser. -/
def initState : StreamState := ⟨[], -1, [], []⟩

/-- The `while len(xs) <= tid: xs.append(x)` growth loops. -/
def growTo {α : Type} (xs : List α) (n : Nat) (x : α) : List α :=
  xs ++ List.replicate (n - xs.length) x

/-- `extract_tool_calls_streaming` (lines 113–180), as a state transformer:
strip the delta, append to the buffer, and branch on the markers present.
On the no-start-marker branch the buffer is cleared and the content is the
whole buffer unless a call has already been emitted (`current_tool_id >
0`), in which case content is `None`.  With a start but no end marker the
buffer is trimmed to the start marker and the preceding text becomes
content.  With both markers, the prefix through the end marker is handed
to `extract_tool_calls`; zero extracted calls returns `None` and leaves
the appended buffer in place (after the `current_tool_id`/array
initialization already performed); otherwise the first call is emitted at
index `current_tool_id`, the arrays are updated, the id incremented, and
the buffer truncated past the end marker. -/
def extract_tool_calls_streaming (σ : StreamState) (delta_text : Str) :
    Option DeltaMessage × StreamState :=
  let d := strip_think_tags delta_text
  let cur_text := σ.buffer ++ d
  match splitOnce tool_call_start_token cur_text with
  | none =>
    let content := if σ.current_tool_id > 0 then [] else cur_text
    (some ⟨if content = [] then none else some content, []⟩,
      { σ with buffer := [] })
  | some (pre, rest1) =>
    match splitOnce tool_call_end_token (tool_call_start_token ++ rest1) with
    | none =>
      let content := rstripNl pre
      (some ⟨if content = [] then none else some content, []⟩,
        { σ with buffer := tool_call_start_token ++ rest1 })
    | some (mid, rest2) =>
      let tid := if σ.current_tool_id = -1 then 0 else σ.current_tool_id
      let arr0 := if σ.current_tool_id = -1 then [] else σ.prev_tool_call_arr
      let sa0 := if σ.current_tool_id = -1 then [] else σ.streamed_args_for_tool
      let arr1 := growTo arr0 (tid.toNat + 1) ([], Json.obj [])
      let sa1 := growTo sa0 (tid.toNat + 1) []
      let ex := extract_tool_calls (pre ++ mid ++ tool_call_end_token)
      match ex.tool_calls with
      | [] =>
        (none,
          { buffer := cur_text, current_tool_id := tid,
            prev_tool_call_arr := arr1, streamed_args_for_tool := sa1 })
      | tc :: _ =>
        (some ⟨ex.content, [⟨tid, ⟨tc.function.name, tc.function.arguments⟩⟩]⟩,
          { buffer := rest2,
            current_tool_id := tid + 1,
            prev_tool_call_arr := arr1.set tid.toNat
              (tc.function.name,
                (jsonParse tc.function.arguments).getD (Json.obj [])),
            streamed_args_for_tool := sa1.set tid.toNat tc.function.arguments })

/-- Drive one streaming session: feed the fragments in order to one parser
instance, collecting the returned delta messages. -/
def runStream (σ : StreamState) : List Str → List DeltaMessage × StreamState
  | [] => ([], σ)
  | d :: ds =>
    let r := extract_tool_calls_streaming σ d
    let rs := runStream r.2 ds
    (r.1.toList ++ rs.1, rs.2)

/-- All tool-call fragments emitted during a session, in emission order. -/
def emittedCalls (σ : StreamState) (frags : List Str) : List DeltaToolCall :=
  ((runStream σ frags).1.map DeltaMessage.tool_calls).flatten

/-! ## Properties -/

set_option maxRecDepth 40000

theorem buildCalls_none_of_mem {j : Str} {l : List Str} (hmem : j ∈ l)
    (hj : buildCall j = none) : buildCalls l = none := by
  induction l with
  | nil => cases hmem
  | cons x xs ih =>
    show (match buildCall x, buildCalls xs with
      | some c, some cs => some (c :: cs)
      | _, _ => none) = none
    rcases List.mem_cons.mp hmem with rfl | hmem'
    · rw [hj]
    · rw [ih hmem']
      cases buildCall x <;> rfl

/-- C6 (counterexample): stripping narration delimiters is *not*
idempotent: removing `<think>` from `<thi<think>nk>` splices a fresh
`<think>` together, which a second strip removes. -/
theorem trinity_C6_counterexample :
    strip_think_tags (strip_think_tags "<thi<think>nk>".data) ≠
      strip_think_tags "<thi<think>nk>".data := by decide

/-- C6 (amended): stripping is idempotent on every input whose stripped
form no longer contains a narration delimiter (removal can splice
delimiter fragments into new delimiters; when it does not, a second strip
is the identity). -/
theorem trinity_C6_strip_idempotent_of_clean (s : Str)
    (h1 : ¬ Occurs think_open_token (strip_think_tags s))
    (h2 : ¬ Occurs think_close_token (strip_think_tags s)) :
    strip_think_tags (strip_think_tags s) = strip_think_tags s := by
  show removeAll think_close_token (removeAll think_open_token (strip_think_tags s)) =
    strip_think_tags s
  rw [removeAll_of_not_occurs h1, removeAll_of_not_occurs h2]

/-- C6 (witness): the amended idempotence applied at `"hello"`. -/
theorem trinity_C6_witness :
    strip_think_tags (strip_think_tags "hello".data) = strip_think_tags "hello".data :=
  trinity_C6_strip_idempotent_of_clean "hello".data
    (splitOnce_none_iff.mp (by decide))
    (splitOnce_none_iff.mp (by decide))

/-- The zeta-reduced unfolding of `extract_tool_calls`. -/
theorem extract_tool_calls_eq (s : Str) :
    extract_tool_calls s =
      match splitOnce tool_call_start_token (strip_think_tags s) with
      | none => ⟨false, [], some (strip_think_tags s)⟩
      | some (pre, _) =>
        match buildCalls (findAllTC (strip_think_tags s)) with
        | none => ⟨false, [], some (strip_think_tags s)⟩
        | some tcs =>
          ⟨true, tcs, if rstripNl pre = [] then none else some (rstripNl pre)⟩ := rfl

/-- C8 (counterexample): on the empty input the no-start-marker branch
returns `content = some ""` — an empty-string sentinel, though the
remaining narration text is empty. -/
theorem trinity_C8_counterexample :
    (extract_tool_calls []).content = some [] := by decide

/-- C8 (amended): on the successful-extraction branch (`tools_called =
true`) content is never the empty string (it is `none` instead); but on
the no-start-marker branch content is the stripped text verbatim, which
may be the empty string. -/
theorem trinity_C8_content (s : Str) :
    ((extract_tool_calls s).tools_called = true →
      (extract_tool_calls s).content ≠ some []) ∧
    (splitOnce tool_call_start_token (strip_think_tags s) = none →
      (extract_tool_calls s).content = some (strip_think_tags s)) := by
  rw [extract_tool_calls_eq]
  cases h1 : splitOnce tool_call_start_token (strip_think_tags s) with
  | none =>
    exact ⟨fun hcalled => Bool.noConfusion hcalled, fun _ => rfl⟩
  | some p =>
    obtain ⟨pre, rest⟩ := p
    cases h2 : buildCalls (findAllTC (strip_think_tags s)) with
    | none =>
      exact ⟨fun hcalled => Bool.noConfusion hcalled,
        fun hno => Option.noConfusion hno⟩
    | some tcs =>
      refine ⟨fun _ => ?_, fun hno => ?_⟩
      · show (if rstripNl pre = [] then none else some (rstripNl pre)) ≠ some []
        by_cases hc : rstripNl pre = []
        · rw [if_pos hc]
          intro hcon
          cases hcon
        · rw [if_neg hc]
          intro hcon
          exact hc (Option.some.inj hcon)
      · exact Option.noConfusion hno

/-- C8 (witness): the amended content property at a successful extraction
and at the empty no-marker input. -/
theorem trinity_C8_witness :
    (extract_tool_calls
        ("<tool_call>\x7b\"name\": \"f\", \"arguments\": \x7b\x7d\x7d</tool_call>").data).content ≠
      some [] ∧
    (extract_tool_calls []).content = some (strip_think_tags []) :=
  ⟨(trinity_C8_content _).1 (by decide), (trinity_C8_content []).2 (by decide)⟩

/-- C10: a start marker with no later end marker yields
`tools_called = true` with an *empty* call list; content is the text
before the first start marker with trailing newlines trimmed (`none` if
empty), and everything from the start marker on is dropped. -/
theorem trinity_C10_start_without_end (s pre rest1 : Str)
    (h1 : splitOnce tool_call_start_token (strip_think_tags s) = some (pre, rest1))
    (h2 : splitOnce tool_call_end_token rest1 = none) :
    extract_tool_calls s =
      ⟨true, [],
        if rstripNl pre = [] then none else some (rstripNl pre)⟩ := by
  have hfind : findAllTC (strip_think_tags s) = [] := by
    rw [findAllTC_eq, h1]
    show (match splitOnce tool_call_end_token rest1 with
      | none => []
      | some (inner, rest2) => trimWs inner :: findAllTC rest2) = []
    rw [h2]
  rw [extract_tool_calls_eq, h1, hfind]
  rfl

/-- C10 (witness): evaluated at `"text\n\n<tool_call>{\"name\""`. -/
theorem trinity_C10_witness :
    extract_tool_calls "text\n\n<tool_call>\x7b\"name\"".data =
      ⟨true, [], some "text".data⟩ := by
  have h := trinity_C10_start_without_end "text\n\n<tool_call>\x7b\"name\"".data
    "text\n\n".data "\x7b\"name\"".data (by decide) (by decide)
  rw [h]
  decide

/-- C5: if any located span's payload fails (JSON parse failure, a
non-object payload, or a non-string name — the exception path), the whole
extraction degrades to `tools_called = false`, no calls, and the full
stripped text as content. -/
theorem trinity_C5_degrade_on_failure (s pre rest1 : Str)
    (h1 : splitOnce tool_call_start_token (strip_think_tags s) = some (pre, rest1))
    (h2 : ∃ j ∈ findAllTC (strip_think_tags s), buildCall j = none) :
    extract_tool_calls s = ⟨false, [], some (strip_think_tags s)⟩ := by
  obtain ⟨j, hmem, hj⟩ := h2
  rw [extract_tool_calls_eq, h1, buildCalls_none_of_mem hmem hj]

/-- C5 (witness): evaluated at a block whose inner text is not JSON. -/
theorem trinity_C5_witness :
    extract_tool_calls "<tool_call>notjson</tool_call>".data =
      ⟨false, [], some (strip_think_tags "<tool_call>notjson</tool_call>".data)⟩ :=
  trinity_C5_degrade_on_failure _ "".data "notjson</tool_call>".data
    (by decide) ⟨"notjson".data, by decide, by decide⟩

/-! ## Structured block texts (shared by C1, C2, C7) -/

/-- One well-formed block: `<tool_call>` ++ inner ++ `</tool_call>`. -/
def blockText (m : Str) : Str :=
  tool_call_start_token ++ m ++ tool_call_end_token

/-- Blocks interleaved with trailing separators:
`blocksText [(m₁,w₁),…]` = `block m₁ ++ w₁ ++ block m₂ ++ w₂ ++ …`. -/
def blocksText : List (Str × Str) → Str
  | [] => []
  | (m, w) :: bs => blockText m ++ w ++ blocksText bs

theorem wsOnly_not_occurs {w tok : Str} {tl : Str} (hw : wsOnly w)
    (htok : tok = '<' :: tl) : ¬ Occurs tok w := by
  intro h
  have hmem := occurs_head_mem h htok
  have := hw '<' hmem
  simp [isWs] at this

theorem splitOnce_start_ws {w rest : Str} (hw : wsOnly w) :
    splitOnce tool_call_start_token (w ++ tool_call_start_token ++ rest) =
      some (w, rest) :=
  splitOnce_first (by decide) (by decide) (wsOnly_not_occurs hw rfl)

/-- The first occurrence lemma specialised to the end marker after a
no-end-marker inner text. -/
theorem splitOnce_end_block {m t : Str} (hm : ¬ Occurs tool_call_end_token m) :
    splitOnce tool_call_end_token (m ++ tool_call_end_token ++ t) = some (m, t) :=
  splitOnce_first (by decide) (by decide) hm

/-- `findall` over whitespace-separated well-formed blocks returns exactly
the trimmed inner texts, in order. -/
theorem findAllTC_structured :
    ∀ (bs : List (Str × Str)) (w : Str), wsOnly w →
      (∀ p ∈ bs, wsOnly p.2 ∧ ¬ Occurs tool_call_end_token p.1) →
      findAllTC (w ++ blocksText bs) = bs.map (fun p => trimWs p.1) := by
  intro bs
  induction bs with
  | nil =>
    intro w hw _
    rw [findAllTC_eq]
    have hno : splitOnce tool_call_start_token (w ++ blocksText []) = none := by
      apply splitOnce_none_of_not_occurs
      show ¬ Occurs tool_call_start_token (w ++ [])
      rw [List.append_nil]
      exact wsOnly_not_occurs hw rfl
    rw [hno]
    rfl
  | cons p bs ih =>
    obtain ⟨m, w'⟩ := p
    intro w hw hall
    have htext : w ++ blocksText ((m, w') :: bs) =
        w ++ tool_call_start_token ++
          (m ++ tool_call_end_token ++ (w' ++ blocksText bs)) := by
      simp [blocksText, blockText, List.append_assoc]
    rw [findAllTC_eq, htext, splitOnce_start_ws hw]
    show (match splitOnce tool_call_end_token
        (m ++ tool_call_end_token ++ (w' ++ blocksText bs)) with
      | none => []
      | some (inner, rest2) => trimWs inner :: findAllTC rest2) = _
    rw [splitOnce_end_block (hall (m, w') (List.mem_cons_self _ _)).2]
    show trimWs m :: findAllTC (w' ++ blocksText bs) = _
    rw [ih w' (hall (m, w') (List.mem_cons_self _ _)).1
      (fun q hq => hall q (List.mem_cons_of_mem _ hq))]
    rfl

theorem buildCalls_forall₂ {l : List Str} {cs : List ToolCall}
    (h : List.Forall₂ (fun j c => buildCall j = some c) l cs) :
    buildCalls l = some cs := by
  induction h with
  | nil => rfl
  | cons hj _ ih =>
    show (match buildCall _, buildCalls _ with
      | some c, some cs => some (c :: cs)
      | _, _ => none) = _
    rw [hj, ih]

/-- The extracted record's name: the payload's `name` field, defaulting to
the empty string when absent. -/
def nameOf (fields : List (Str × Json)) : Str :=
  match (lookupField fields "name".data).getD (Json.str []) with
  | Json.str n => n
  | _ => []

/-- The extracted record's arguments value: the payload's `arguments`
field, defaulting to the empty object when absent. -/
def argOf (fields : List (Str × Json)) : Json :=
  (lookupField fields "arguments".data).getD (Json.obj [])

/-- The payload's `name` field is absent or a string (otherwise the
Python record construction raises and the whole extraction degrades). -/
def NameOk (fields : List (Str × Json)) : Prop :=
  lookupField fields "name".data = none ∨
    ∃ n, lookupField fields "name".data = some (Json.str n)

theorem buildCall_of_payload {j : Str} {fields : List (Str × Json)}
    (hp : jsonParse j = some (Json.obj fields)) (hn : NameOk fields) :
    buildCall j = some ⟨⟨nameOf fields, jsonDumps (argOf fields)⟩⟩ := by
  unfold buildCall
  rw [hp]
  simp only [nameOf, argOf]
  rcases hn with hnone | ⟨n, hsome⟩
  · rw [hnone]
    rfl
  · rw [hsome]
    rfl

/-- Shared characterization: extraction over whitespace-separated
well-formed blocks. -/
theorem extract_blocks_eq (w0 : Str) (bs : List (Str × Str))
    (hw0 : wsOnly w0)
    (hbs : ∀ p ∈ bs, wsOnly p.2 ∧ ¬ Occurs tool_call_end_token p.1)
    (ht1 : ¬ Occurs think_open_token (w0 ++ blocksText bs))
    (ht2 : ¬ Occurs think_close_token (w0 ++ blocksText bs))
    (hne : bs ≠ [])
    {cs : List ToolCall}
    (hcs : List.Forall₂ (fun p c => buildCall (trimWs p.1) = some c) bs cs) :
    extract_tool_calls (w0 ++ blocksText bs) =
      ⟨true, cs, if rstripNl w0 = [] then none else some (rstripNl w0)⟩ := by
  have hstrip : strip_think_tags (w0 ++ blocksText bs) = w0 ++ blocksText bs := by
    show removeAll think_close_token (removeAll think_open_token _) = _
    rw [removeAll_of_not_occurs ht1, removeAll_of_not_occurs ht2]
  obtain ⟨⟨m, w'⟩, bs', rfl⟩ : ∃ p bs', bs = p :: bs' := by
    cases bs with
    | nil => exact absurd rfl hne
    | cons p bs' => exact ⟨p, bs', rfl⟩
  have htext : w0 ++ blocksText ((m, w') :: bs') =
      w0 ++ tool_call_start_token ++
        (m ++ tool_call_end_token ++ (w' ++ blocksText bs')) := by
    simp [blocksText, blockText, List.append_assoc]
  have h1 : splitOnce tool_call_start_token (w0 ++ blocksText ((m, w') :: bs')) =
      some (w0, m ++ tool_call_end_token ++ (w' ++ blocksText bs')) := by
    rw [htext]
    exact splitOnce_start_ws hw0
  have hfind := findAllTC_structured ((m, w') :: bs') w0 hw0 hbs
  have hcalls : buildCalls (findAllTC (w0 ++ blocksText ((m, w') :: bs'))) = some cs := by
    rw [hfind]
    apply buildCalls_forall₂
    have hmapf : ∀ (l : List (Str × Str)) (cs' : List ToolCall),
        List.Forall₂ (fun p c => buildCall (trimWs p.1) = some c) l cs' →
        List.Forall₂ (fun j c => buildCall j = some c)
          (l.map fun p => trimWs p.1) cs' := by
      intro l
      induction l with
      | nil =>
        intro cs' h
        cases h
        constructor
      | cons a l ih =>
        intro cs' h
        cases h with
        | cons hj htl => exact List.Forall₂.cons hj (ih _ htl)
    exact hmapf _ _ hcs
  rw [extract_tool_calls_eq, hstrip, h1]
  show (match buildCalls (findAllTC (w0 ++ blocksText ((m, w') :: bs'))) with
    | none =>
      (⟨false, [], some (w0 ++ blocksText ((m, w') :: bs'))⟩ :
        ExtractedToolCallInformation)
    | some tcs =>
      ⟨true, tcs, if rstripNl w0 = [] then none else some (rstripNl w0)⟩) = _
  rw [hcalls]

/-- C2 (counterexample): a single well-formed block whose (valid!) JSON
payload contains the end marker inside a string literal.  The lazy scan
ends the span at that embedded marker, the truncated inner text is not
valid JSON, and the whole extraction degrades to `tools_called = false`
with no calls — not `true` with one call. -/
theorem trinity_C2_counterexample :
    (jsonParse ("\x7b\"name\": \"a\", \"arguments\": \x7b\"x\": \"</tool_call>\"\x7d\x7d").data).isSome = true ∧
    extract_tool_calls
        ("<tool_call>\x7b\"name\": \"a\", \"arguments\": \x7b\"x\": \"</tool_call>\"\x7d\x7d</tool_call>").data =
      ⟨false, [],
        some ("<tool_call>\x7b\"name\": \"a\", \"arguments\": \x7b\"x\": \"</tool_call>\"\x7d\x7d</tool_call>").data⟩ :=
  ⟨by decide, by decide⟩

/-- C2 (amended): for a text built from N well-formed blocks separated by
whitespace, with no narration delimiter in the text and *no end marker
inside any block's inner text*, one-shot extraction returns
`tools_called = true` and exactly the N embedded calls in left-to-right
order, each with the payload's name (default `""`) and the re-serialized
payload arguments (default `{}`). -/
theorem trinity_C2_wellformed_blocks (w0 : Str) (bs : List (Str × Str))
    (F : List (List (Str × Json)))
    (hw0 : wsOnly w0)
    (hbs : ∀ p ∈ bs, wsOnly p.2 ∧ ¬ Occurs tool_call_end_token p.1)
    (ht1 : ¬ Occurs think_open_token (w0 ++ blocksText bs))
    (ht2 : ¬ Occurs think_close_token (w0 ++ blocksText bs))
    (hne : bs ≠ [])
    (hF : List.Forall₂
      (fun p f => jsonParse (trimWs p.1) = some (Json.obj f) ∧ NameOk f) bs F) :
    (extract_tool_calls (w0 ++ blocksText bs)).tools_called = true ∧
    (extract_tool_calls (w0 ++ blocksText bs)).tool_calls =
      F.map (fun f => ⟨⟨nameOf f, jsonDumps (argOf f)⟩⟩) := by
  have hmap : ∀ (l : List (Str × Str)) (Fs : List (List (Str × Json))),
      List.Forall₂
        (fun p f => jsonParse (trimWs p.1) = some (Json.obj f) ∧ NameOk f) l Fs →
      List.Forall₂ (fun p c => buildCall (trimWs p.1) = some c) l
        (Fs.map (fun f => ⟨⟨nameOf f, jsonDumps (argOf f)⟩⟩)) := by
    intro l
    induction l with
    | nil =>
      intro Fs h
      cases h
      constructor
    | cons a l ih =>
      intro Fs h
      cases h with
      | cons hj htl =>
        exact List.Forall₂.cons (buildCall_of_payload hj.1 hj.2) (ih _ htl)
  rw [extract_blocks_eq w0 bs hw0 hbs ht1 ht2 hne (hmap bs F hF)]
  exact ⟨rfl, rfl⟩

/-- C2 (witness): two blocks with messy internal whitespace and a missing
`arguments`/whitespace separator, evaluated concretely. -/
theorem trinity_C2_witness :
    (extract_tool_calls
      ([] ++ blocksText
        [("\n\x7b\"name\": \"a\", \"arguments\": \x7b\"x\": 1\x7d\x7d\n".data, "\n  ".data),
         ("\x7b\"name\": \"b\"\x7d".data, [])])).tools_called = true ∧
    (extract_tool_calls
      ([] ++ blocksText
        [("\n\x7b\"name\": \"a\", \"arguments\": \x7b\"x\": 1\x7d\x7d\n".data, "\n  ".data),
         ("\x7b\"name\": \"b\"\x7d".data, [])])).tool_calls =
      [⟨⟨"a".data, "\x7b\"x\": 1\x7d".data⟩⟩, ⟨⟨"b".data, "\x7b\x7d".data⟩⟩] := by
  have h := trinity_C2_wellformed_blocks []
    [("\n\x7b\"name\": \"a\", \"arguments\": \x7b\"x\": 1\x7d\x7d\n".data, "\n  ".data),
     ("\x7b\"name\": \"b\"\x7d".data, [])]
    [[("name".data, Json.str "a".data),
      ("arguments".data, Json.obj [("x".data, Json.num 1)])],
     [("name".data, Json.str "b".data)]]
    (by intro c hc; cases hc)
    (by
      intro p hp
      rcases List.mem_cons.mp hp with rfl | hp'
      · exact ⟨by decide, splitOnce_none_iff.mp (by decide)⟩
      · rcases List.mem_cons.mp hp' with rfl | hp''
        · exact ⟨by decide, splitOnce_none_iff.mp (by decide)⟩
        · cases hp'')
    (splitOnce_none_iff.mp (by decide))
    (splitOnce_none_iff.mp (by decide))
    (by intro hcon; cases hcon)
    (List.Forall₂.cons ⟨rfl, Or.inr ⟨_, rfl⟩⟩
      (List.Forall₂.cons ⟨rfl, Or.inr ⟨_, rfl⟩⟩ List.Forall₂.nil))
  exact ⟨h.1, h.2.trans (by decide)⟩

/-- C7 (counterexample): two payloads whose `arguments` are equal as JSON
values (same key→value map, different key order) serialize to *different*
arguments texts: `json.dumps` preserves the parsed insertion order and is
not canonical across key order. -/
theorem trinity_C7_counterexample :
    jsonParse "\x7b\"a\": 1, \"b\": 2\x7d".data =
      some (Json.obj [("a".data, Json.num 1), ("b".data, Json.num 2)]) ∧
    jsonParse "\x7b\"b\": 2, \"a\": 1\x7d".data =
      some (Json.obj [("b".data, Json.num 2), ("a".data, Json.num 1)]) ∧
    jsonEquiv (Json.obj [("a".data, Json.num 1), ("b".data, Json.num 2)])
      (Json.obj [("b".data, Json.num 2), ("a".data, Json.num 1)]) = true ∧
    (extract_tool_calls
        ("<tool_call>\x7b\"name\": \"f\", \"arguments\": \x7b\"a\": 1, \"b\": 2\x7d\x7d</tool_call>").data).tool_calls =
      [⟨⟨"f".data, "\x7b\"a\": 1, \"b\": 2\x7d".data⟩⟩] ∧
    (extract_tool_calls
        ("<tool_call>\x7b\"name\": \"f\", \"arguments\": \x7b\"b\": 2, \"a\": 1\x7d\x7d</tool_call>").data).tool_calls =
      [⟨⟨"f".data, "\x7b\"b\": 2, \"a\": 1\x7d".data⟩⟩] ∧
    "\x7b\"a\": 1, \"b\": 2\x7d".data ≠ "\x7b\"b\": 2, \"a\": 1\x7d".data :=
  ⟨rfl, rfl, by decide, by decide, by decide, by decide⟩

/-- C7 (amended): for a block whose inner text parses to a JSON object,
the record's name is the payload's `name` (default `""` when absent) and
its arguments text is the deterministic re-serialization of the payload's
parsed `arguments` value (default `"{}"` when absent) — identical for any
two payloads that parse to the same value (whitespace/formatting
insensitive), though sensitive to object key order. -/
theorem trinity_C7_record (m : Str) (fields : List (Str × Json))
    (hm : ¬ Occurs tool_call_end_token m)
    (ht1 : ¬ Occurs think_open_token (blockText m))
    (ht2 : ¬ Occurs think_close_token (blockText m))
    (hparse : jsonParse (trimWs m) = some (Json.obj fields))
    (hname : NameOk fields) :
    (extract_tool_calls (blockText m)).tool_calls =
      [⟨⟨nameOf fields, jsonDumps (argOf fields)⟩⟩] ∧
    (∀ m' : Str, ¬ Occurs tool_call_end_token m' →
      ¬ Occurs think_open_token (blockText m') →
      ¬ Occurs think_close_token (blockText m') →
      jsonParse (trimWs m') = some (Json.obj fields) →
      (extract_tool_calls (blockText m')).tool_calls =
        (extract_tool_calls (blockText m)).tool_calls) := by
  have hone : ∀ m'' : Str, ¬ Occurs tool_call_end_token m'' →
      ¬ Occurs think_open_token (blockText m'') →
      ¬ Occurs think_close_token (blockText m'') →
      jsonParse (trimWs m'') = some (Json.obj fields) →
      (extract_tool_calls (blockText m'')).tool_calls =
        [⟨⟨nameOf fields, jsonDumps (argOf fields)⟩⟩] := by
    intro m'' hm'' ht1'' ht2'' hp''
    have htxt : [] ++ blocksText [(m'', [])] = blockText m'' := by
      simp [blocksText]
    have h := extract_blocks_eq [] [(m'', [])]
      (by intro c hc; cases hc)
      (by
        intro p hp
        rcases List.mem_cons.mp hp with rfl | hp'
        · exact ⟨(by intro c hc; cases hc), hm''⟩
        · cases hp')
      (htxt ▸ ht1'')
      (htxt ▸ ht2'')
      (by intro hcon; cases hcon)
      (List.Forall₂.cons (buildCall_of_payload hp'' hname) List.Forall₂.nil)
    rw [htxt] at h
    rw [h]
  refine ⟨hone m hm ht1 ht2 hparse, fun m' hm' ht1' ht2' hp' => ?_⟩
  rw [hone m hm ht1 ht2 hparse, hone m' hm' ht1' ht2' hp']

/-- C7 (witness): the record construction applied to a payload with
unusual formatting and an absent `arguments` field. -/
theorem trinity_C7_witness :
    (extract_tool_calls (blockText "  \x7b\"name\":\n\"g\"\x7d  ".data)).tool_calls =
      [⟨⟨"g".data, "\x7b\x7d".data⟩⟩] ∧
    (extract_tool_calls (blockText "\x7b\"name\": \"g\"\x7d".data)).tool_calls =
      (extract_tool_calls (blockText "  \x7b\"name\":\n\"g\"\x7d  ".data)).tool_calls := by
  have h := trinity_C7_record "  \x7b\"name\":\n\"g\"\x7d  ".data
    [("name".data, Json.str "g".data)]
    (splitOnce_none_iff.mp (by decide))
    (splitOnce_none_iff.mp (by decide))
    (splitOnce_none_iff.mp (by decide))
    rfl
    (Or.inr ⟨_, rfl⟩)
  exact ⟨h.1, h.2 "\x7b\"name\": \"g\"\x7d".data
    (splitOnce_none_iff.mp (by decide))
    (splitOnce_none_iff.mp (by decide))
    (splitOnce_none_iff.mp (by decide))
    rfl⟩

/-! ## Streaming step characterization -/

/-- The zeta-reduced unfolding of `extract_tool_calls_streaming`. -/
theorem extract_tool_calls_streaming_eq (σ : StreamState) (delta_text : Str) :
    extract_tool_calls_streaming σ delta_text =
      (match splitOnce tool_call_start_token
          (σ.buffer ++ strip_think_tags delta_text) with
       | none =>
         (some ⟨if (if σ.current_tool_id > 0 then []
               else σ.buffer ++ strip_think_tags delta_text) = [] then none
             else some (if σ.current_tool_id > 0 then []
               else σ.buffer ++ strip_think_tags delta_text), []⟩,
           { σ with buffer := [] })
       | some (pre, rest1) =>
         match splitOnce tool_call_end_token (tool_call_start_token ++ rest1) with
         | none =>
           (some ⟨if rstripNl pre = [] then none else some (rstripNl pre), []⟩,
             { σ with buffer := tool_call_start_token ++ rest1 })
         | some (mid, rest2) =>
           match (extract_tool_calls (pre ++ mid ++ tool_call_end_token)).tool_calls with
           | [] =>
             (none,
               { buffer := σ.buffer ++ strip_think_tags delta_text,
                 current_tool_id :=
                   if σ.current_tool_id = -1 then 0 else σ.current_tool_id,
                 prev_tool_call_arr :=
                   growTo (if σ.current_tool_id = -1 then []
                       else σ.prev_tool_call_arr)
                     ((if σ.current_tool_id = -1 then 0
                       else σ.current_tool_id).toNat + 1) ([], Json.obj []),
                 streamed_args_for_tool :=
                   growTo (if σ.current_tool_id = -1 then []
                       else σ.streamed_args_for_tool)
                     ((if σ.current_tool_id = -1 then 0
                       else σ.current_tool_id).toNat + 1) [] })
           | tc :: _ =>
             (some ⟨(extract_tool_calls (pre ++ mid ++ tool_call_end_token)).content,
                 [⟨if σ.current_tool_id = -1 then 0 else σ.current_tool_id,
                   ⟨tc.function.name, tc.function.arguments⟩⟩]⟩,
               { buffer := rest2,
                 current_tool_id :=
                   (if σ.current_tool_id = -1 then 0 else σ.current_tool_id) + 1,
                 prev_tool_call_arr :=
                   (growTo (if σ.current_tool_id = -1 then []
                       else σ.prev_tool_call_arr)
                     ((if σ.current_tool_id = -1 then 0
                       else σ.current_tool_id).toNat + 1) ([], Json.obj [])).set
                     (if σ.current_tool_id = -1 then 0
                       else σ.current_tool_id).toNat
                     (tc.function.name,
                       (jsonParse tc.function.arguments).getD (Json.obj [])),
                 streamed_args_for_tool :=
                   (growTo (if σ.current_tool_id = -1 then []
                       else σ.streamed_args_for_tool)
                     ((if σ.current_tool_id = -1 then 0
                       else σ.current_tool_id).toNat + 1) []).set
                     (if σ.current_tool_id = -1 then 0
                       else σ.current_tool_id).toNat tc.function.arguments })) := rfl

theorem step_eq_no_start {σ : StreamState} {d : Str}
    (h1 : splitOnce tool_call_start_token
      (σ.buffer ++ strip_think_tags d) = none) :
    extract_tool_calls_streaming σ d =
      (some ⟨if (if σ.current_tool_id > 0 then []
            else σ.buffer ++ strip_think_tags d) = [] then none
          else some (if σ.current_tool_id > 0 then []
            else σ.buffer ++ strip_think_tags d), []⟩,
        { σ with buffer := [] }) := by
  rw [extract_tool_calls_streaming_eq, h1]

theorem step_eq_no_end {σ : StreamState} {d pre rest1 : Str}
    (h1 : splitOnce tool_call_start_token
      (σ.buffer ++ strip_think_tags d) = some (pre, rest1))
    (h2 : splitOnce tool_call_end_token (tool_call_start_token ++ rest1) = none) :
    extract_tool_calls_streaming σ d =
      (some ⟨if rstripNl pre = [] then none else some (rstripNl pre), []⟩,
        { σ with buffer := tool_call_start_token ++ rest1 }) := by
  rw [extract_tool_calls_streaming_eq, h1]
  simp only [h2]

theorem step_eq_zero_calls {σ : StreamState} {d pre rest1 mid rest2 : Str}
    (h1 : splitOnce tool_call_start_token
      (σ.buffer ++ strip_think_tags d) = some (pre, rest1))
    (h2 : splitOnce tool_call_end_token (tool_call_start_token ++ rest1) =
      some (mid, rest2))
    (h3 : (extract_tool_calls (pre ++ mid ++ tool_call_end_token)).tool_calls = []) :
    extract_tool_calls_streaming σ d =
      (none,
        { buffer := σ.buffer ++ strip_think_tags d,
          current_tool_id :=
            if σ.current_tool_id = -1 then 0 else σ.current_tool_id,
          prev_tool_call_arr :=
            growTo (if σ.current_tool_id = -1 then [] else σ.prev_tool_call_arr)
              ((if σ.current_tool_id = -1 then 0
                else σ.current_tool_id).toNat + 1) ([], Json.obj []),
          streamed_args_for_tool :=
            growTo (if σ.current_tool_id = -1 then []
                else σ.streamed_args_for_tool)
              ((if σ.current_tool_id = -1 then 0
                else σ.current_tool_id).toNat + 1) [] }) := by
  rw [extract_tool_calls_streaming_eq, h1]
  simp only [h2, h3]

theorem step_eq_call {σ : StreamState} {d pre rest1 mid rest2 : Str}
    {tc : ToolCall} {tl : List ToolCall}
    (h1 : splitOnce tool_call_start_token
      (σ.buffer ++ strip_think_tags d) = some (pre, rest1))
    (h2 : splitOnce tool_call_end_token (tool_call_start_token ++ rest1) =
      some (mid, rest2))
    (h3 : (extract_tool_calls (pre ++ mid ++ tool_call_end_token)).tool_calls =
      tc :: tl) :
    extract_tool_calls_streaming σ d =
      (some ⟨(extract_tool_calls (pre ++ mid ++ tool_call_end_token)).content,
          [⟨if σ.current_tool_id = -1 then 0 else σ.current_tool_id,
            ⟨tc.function.name, tc.function.arguments⟩⟩]⟩,
        { buffer := rest2,
          current_tool_id :=
            (if σ.current_tool_id = -1 then 0 else σ.current_tool_id) + 1,
          prev_tool_call_arr :=
            (growTo (if σ.current_tool_id = -1 then [] else σ.prev_tool_call_arr)
              ((if σ.current_tool_id = -1 then 0
                else σ.current_tool_id).toNat + 1) ([], Json.obj [])).set
              (if σ.current_tool_id = -1 then 0 else σ.current_tool_id).toNat
              (tc.function.name,
                (jsonParse tc.function.arguments).getD (Json.obj [])),
          streamed_args_for_tool :=
            (growTo (if σ.current_tool_id = -1 then []
                else σ.streamed_args_for_tool)
              ((if σ.current_tool_id = -1 then 0
                else σ.current_tool_id).toNat + 1) []).set
              (if σ.current_tool_id = -1 then 0
                else σ.current_tool_id).toNat tc.function.arguments }) := by
  rw [extract_tool_calls_streaming_eq, h1]
  simp only [h2, h3]

/-- The tool-call fragments carried by one step result. -/
def streamToolCalls (r : Option DeltaMessage) : List DeltaToolCall :=
  match r with
  | none => []
  | some msg => msg.tool_calls

/-- The session invariant tying `current_tool_id` to the number `e` of
calls emitted so far: `-1` (or `0` after a failed completion) before the
first emission, exactly `e` afterwards. -/
def StreamInv (σ : StreamState) (e : Nat) : Prop :=
  (e = 0 → σ.current_tool_id = -1 ∨ σ.current_tool_id = 0) ∧
  (0 < e → σ.current_tool_id = (e : Int))

theorem streamInv_tid {σ : StreamState} {e : Nat} (hinv : StreamInv σ e) :
    (if σ.current_tool_id = -1 then 0 else σ.current_tool_id) = (e : Int) := by
  rcases Nat.eq_zero_or_pos e with rfl | hpos
  · rcases hinv.1 rfl with h | h <;> rw [h] <;> rfl
  · rw [hinv.2 hpos]
    have : (e : Int) ≠ -1 := by omega
    rw [if_neg this]

/-- One step emits either nothing or exactly one call carrying index `e`,
and the invariant advances accordingly. -/
theorem step_indices {σ : StreamState} {e : Nat} (hinv : StreamInv σ e) (d : Str) :
    (streamToolCalls (extract_tool_calls_streaming σ d).1 = [] ∧
      StreamInv (extract_tool_calls_streaming σ d).2 e) ∨
    (∃ f, streamToolCalls (extract_tool_calls_streaming σ d).1 = [⟨(e : Int), f⟩] ∧
      StreamInv (extract_tool_calls_streaming σ d).2 (e + 1)) := by
  cases h1 : splitOnce tool_call_start_token (σ.buffer ++ strip_think_tags d) with
  | none =>
    left
    rw [step_eq_no_start h1]
    exact ⟨rfl, hinv⟩
  | some p1 =>
    obtain ⟨pre, rest1⟩ := p1
    cases h2 : splitOnce tool_call_end_token (tool_call_start_token ++ rest1) with
    | none =>
      left
      rw [step_eq_no_end h1 h2]
      exact ⟨rfl, hinv⟩
    | some p2 =>
      obtain ⟨mid, rest2⟩ := p2
      cases h3 : (extract_tool_calls (pre ++ mid ++ tool_call_end_token)).tool_calls with
      | nil =>
        left
        rw [step_eq_zero_calls h1 h2 h3]
        refine ⟨rfl, ?_, ?_⟩
        · intro he
          right
          show (if σ.current_tool_id = -1 then 0 else σ.current_tool_id) = 0
          rw [streamInv_tid hinv, he]
          rfl
        · intro hpos
          show (if σ.current_tool_id = -1 then 0 else σ.current_tool_id) = (e : Int)
          exact streamInv_tid hinv
      | cons tc tl =>
        right
        rw [step_eq_call h1 h2 h3]
        refine ⟨⟨tc.function.name, tc.function.arguments⟩, ?_, ?_, ?_⟩
        · show [DeltaToolCall.mk (if σ.current_tool_id = -1 then 0
              else σ.current_tool_id) ⟨tc.function.name, tc.function.arguments⟩] = _
          rw [streamInv_tid hinv]
        · intro he
          exact absurd he (by omega)
        · intro _
          show (if σ.current_tool_id = -1 then 0 else σ.current_tool_id) + 1 =
            ((e + 1 : Nat) : Int)
          rw [streamInv_tid hinv]
          omega

theorem runStream_cons (σ : StreamState) (d : Str) (ds : List Str) :
    runStream σ (d :: ds) =
      ((extract_tool_calls_streaming σ d).1.toList ++
        (runStream (extract_tool_calls_streaming σ d).2 ds).1,
       (runStream (extract_tool_calls_streaming σ d).2 ds).2) := rfl

theorem emittedCalls_cons (σ : StreamState) (d : Str) (ds : List Str) :
    emittedCalls σ (d :: ds) =
      streamToolCalls (extract_tool_calls_streaming σ d).1 ++
        emittedCalls (extract_tool_calls_streaming σ d).2 ds := by
  unfold emittedCalls
  rw [runStream_cons]
  show ((((extract_tool_calls_streaming σ d).1.toList ++
      (runStream (extract_tool_calls_streaming σ d).2 ds).1).map
        DeltaMessage.tool_calls)).flatten = _
  rw [List.map_append, List.flatten_append]
  congr 1
  cases (extract_tool_calls_streaming σ d).1 with
  | none => rfl
  | some msg => simp [streamToolCalls]

theorem runStream_indices (frags : List Str) :
    ∀ (σ : StreamState) (e : Nat), StreamInv σ e →
      (emittedCalls σ frags).map DeltaToolCall.index =
        (List.range' e (emittedCalls σ frags).length).map Int.ofNat := by
  induction frags with
  | nil =>
    intro σ e _
    rfl
  | cons d ds ih =>
    intro σ e hinv
    rw [emittedCalls_cons]
    rcases step_indices hinv d with ⟨hz, hinv'⟩ | ⟨f, hone, hinv'⟩
    · rw [hz]
      simpa using ih _ e hinv'
    · rw [hone]
      have := ih _ (e + 1) hinv'
      simp only [List.map_append, List.length_append, List.map_cons, List.map_nil,
        List.length_cons, List.length_nil]
      rw [this]
      show Int.ofNat e :: _ = (List.range' e (1 + (emittedCalls _ ds).length)).map Int.ofNat
      have hr : List.range' e (1 + (emittedCalls
          (extract_tool_calls_streaming σ d).2 ds).length) =
          e :: List.range' (e + 1) (emittedCalls
            (extract_tool_calls_streaming σ d).2 ds).length := by
        rw [Nat.add_comm 1]
        exact List.range'_succ e _ ..
      rw [hr]
      rfl

/-- C3: within one streaming session on a fresh parser, the indices of
the emitted tool-call fragments, in emission order, are exactly
`0, 1, 2, …` — strictly increasing from `0`, each emitted exactly once,
never repeated or out of order, whatever the fragments are. -/
theorem trinity_C3_indices (frags : List Str) :
    (emittedCalls initState frags).map DeltaToolCall.index =
      (List.range (emittedCalls initState frags).length).map Int.ofNat := by
  have h := runStream_indices frags initState 0
    ⟨fun _ => Or.inl rfl, fun hpos => absurd hpos (by omega)⟩
  rw [h, List.range_eq_range']

theorem runStream_inv (frags : List Str) :
    ∀ (σ : StreamState) (e : Nat), StreamInv σ e →
      StreamInv (runStream σ frags).2 (e + (emittedCalls σ frags).length) := by
  induction frags with
  | nil =>
    intro σ e h
    simpa [emittedCalls, runStream] using h
  | cons d ds ih =>
    intro σ e hinv
    rw [runStream_cons, emittedCalls_cons]
    rcases step_indices hinv d with ⟨hz, hinv'⟩ | ⟨f, hone, hinv'⟩
    · rw [hz]
      simpa using ih _ e hinv'
    · rw [hone]
      have hrec := ih _ (e + 1) hinv'
      have harith : e + ([(⟨(e : Int), f⟩ : DeltaToolCall)] ++
          emittedCalls (extract_tool_calls_streaming σ d).2 ds).length =
          e + 1 + (emittedCalls (extract_tool_calls_streaming σ d).2 ds).length := by
        simp only [List.length_append, List.length_cons, List.length_nil]
        omega
      rw [harith]
      exact hrec

/-- C4: in a session where at least one tool call has been emitted, a
step whose post-append buffer contains no start marker suppresses
narration: the returned delta has `content = none` (and no tool calls)
and the buffer is cleared. -/
theorem trinity_C4_suppression (frags : List Str) (d : Str)
    (hcount : 0 < (emittedCalls initState frags).length)
    (hnostart : splitOnce tool_call_start_token
      ((runStream initState frags).2.buffer ++ strip_think_tags d) = none) :
    (extract_tool_calls_streaming (runStream initState frags).2 d).1 =
      some ⟨none, []⟩ ∧
    (extract_tool_calls_streaming (runStream initState frags).2 d).2.buffer = [] := by
  have hinv := runStream_inv frags initState 0
    ⟨fun _ => Or.inl rfl, fun hpos => absurd hpos (by omega)⟩
  have htid : (runStream initState frags).2.current_tool_id > 0 := by
    have := hinv.2 (by omega)
    rw [this]
    omega
  rw [step_eq_no_start hnostart]
  refine ⟨?_, rfl⟩
  rw [if_pos htid]
  rfl

/-- C4 (witness): one emitted call, then a marker-free fragment. -/
theorem trinity_C4_witness :
    (extract_tool_calls_streaming
      (runStream initState
        [("<tool_call>\x7b\"name\": \"a\", \"arguments\": \x7b\x7d\x7d</tool_call>").data]).2
      "some trailing narration".data).1 = some ⟨none, []⟩ ∧
    (extract_tool_calls_streaming
      (runStream initState
        [("<tool_call>\x7b\"name\": \"a\", \"arguments\": \x7b\x7d\x7d</tool_call>").data]).2
      "some trailing narration".data).2.buffer = [] :=
  trinity_C4_suppression _ _ (by decide) (by decide)

/-- The buffer holds a balanced `<tool_call>…</tool_call>` span whose
extraction yields zero calls (e.g. unparsable inner JSON): the exact
situation of the zero-call streaming branch. -/
def Wedged (b : Str) : Prop :=
  ∃ pre rest1 mid rest2,
    splitOnce tool_call_start_token b = some (pre, rest1) ∧
    splitOnce tool_call_end_token (tool_call_start_token ++ rest1) =
      some (mid, rest2) ∧
    (extract_tool_calls (pre ++ mid ++ tool_call_end_token)).tool_calls = []

theorem step_wedged {σ : StreamState} (hw : Wedged σ.buffer) (d : Str) :
    (extract_tool_calls_streaming σ d).1 = none ∧
    (extract_tool_calls_streaming σ d).2.buffer =
      σ.buffer ++ strip_think_tags d ∧
    Wedged (extract_tool_calls_streaming σ d).2.buffer := by
  obtain ⟨pre, rest1, mid, rest2, h1, h2, h3⟩ := hw
  have h1' := splitOnce_append_right h1 (strip_think_tags d)
  have h2' : splitOnce tool_call_end_token
      (tool_call_start_token ++ (rest1 ++ strip_think_tags d)) =
      some (mid, rest2 ++ strip_think_tags d) := by
    have h := splitOnce_append_right h2 (strip_think_tags d)
    rw [List.append_assoc] at h
    exact h
  rw [step_eq_zero_calls h1' h2' h3]
  exact ⟨rfl, rfl,
    pre, rest1 ++ strip_think_tags d, mid, rest2 ++ strip_think_tags d,
    h1', h2', h3⟩

/-- C9: once the buffer holds a balanced span whose extraction yields no
calls, the span is never consumed: this and every subsequent step returns
`None` (so nothing further is emitted), the buffer only ever grows (the
wedged buffer stays a prefix), and on the very first such step the
session state is still mutated — `current_tool_id` is set to `0` and the
per-index bookkeeping lists are grown — before the failure is detected. -/
theorem trinity_C9_wedged_forever (σ : StreamState) (frags : List Str)
    (hw : Wedged σ.buffer) :
    (∀ d : Str, (extract_tool_calls_streaming σ d).1 = none) ∧
    (runStream σ frags).1 = [] ∧
    σ.buffer <+: (runStream σ frags).2.buffer ∧
    (σ.current_tool_id = -1 → ∀ d : Str,
      (extract_tool_calls_streaming σ d).2.current_tool_id = 0 ∧
      (extract_tool_calls_streaming σ d).2.prev_tool_call_arr =
        [([], Json.obj [])] ∧
      (extract_tool_calls_streaming σ d).2.streamed_args_for_tool = [[]]) := by
  have hrun : ∀ (fr : List Str) (τ : StreamState), Wedged τ.buffer →
      (runStream τ fr).1 = [] ∧ τ.buffer <+: (runStream τ fr).2.buffer := by
    intro fr
    induction fr with
    | nil =>
      intro τ _
      exact ⟨rfl, List.prefix_refl _⟩
    | cons d ds ih =>
      intro τ hwτ
      obtain ⟨hnone, hbuf, hw'⟩ := step_wedged hwτ d
      rw [runStream_cons]
      refine ⟨?_, ?_⟩
      · show (extract_tool_calls_streaming τ d).1.toList ++ _ = []
        rw [hnone, (ih _ hw').1]
        rfl
      · show τ.buffer <+: (runStream (extract_tool_calls_streaming τ d).2 ds).2.buffer
        refine List.IsPrefix.trans ?_ (ih _ hw').2
        rw [hbuf]
        exact List.prefix_append _ _
  refine ⟨fun d => (step_wedged hw d).1, (hrun frags σ hw).1, (hrun frags σ hw).2,
    fun htid d => ?_⟩
  obtain ⟨pre, rest1, mid, rest2, h1, h2, h3⟩ := hw
  have h1' := splitOnce_append_right h1 (strip_think_tags d)
  have h2' : splitOnce tool_call_end_token
      (tool_call_start_token ++ (rest1 ++ strip_think_tags d)) =
      some (mid, rest2 ++ strip_think_tags d) := by
    have h := splitOnce_append_right h2 (strip_think_tags d)
    rw [List.append_assoc] at h
    exact h
  rw [step_eq_zero_calls h1' h2' h3, htid]
  exact ⟨rfl, rfl, rfl⟩

/-- C9 (witness): a bad-JSON span wedges the session. -/
theorem trinity_C9_witness :
    (∀ d : Str, (extract_tool_calls_streaming
      (extract_tool_calls_streaming initState
        "<tool_call>bad</tool_call>".data).2 d).1 = none) ∧
    (runStream (extract_tool_calls_streaming initState
        "<tool_call>bad</tool_call>".data).2
      ["x".data, ("<tool_call>\x7b\"name\": \"a\"\x7d</tool_call>").data]).1 = [] ∧
    (extract_tool_calls_streaming initState
        "<tool_call>bad</tool_call>".data).2.buffer <+:
      (runStream (extract_tool_calls_streaming initState
          "<tool_call>bad</tool_call>".data).2
        ["x".data, ("<tool_call>\x7b\"name\": \"a\"\x7d</tool_call>").data]).2.buffer := by
  have h := trinity_C9_wedged_forever
    (extract_tool_calls_streaming initState "<tool_call>bad</tool_call>".data).2
    ["x".data, ("<tool_call>\x7b\"name\": \"a\"\x7d</tool_call>").data]
    ⟨[], "bad</tool_call>".data, "<tool_call>bad".data, [],
      by decide, by decide, by decide⟩
  exact ⟨h.1, h.2.1, h.2.2.1⟩

/-! ## C1: streaming refines one-shot extraction (machinery) -/

/-- A fragment free of narration delimiters (per-fragment stripping is
then the identity). -/
def NoThink (s : Str) : Prop :=
  ¬ Occurs think_open_token s ∧ ¬ Occurs think_close_token s

theorem strip_of_nothink {s : Str} (h : NoThink s) : strip_think_tags s = s := by
  show removeAll think_close_token (removeAll think_open_token s) = s
  rw [removeAll_of_not_occurs h.1, removeAll_of_not_occurs h.2]

theorem wsOnly_append {a b : Str} (ha : wsOnly a) (hb : wsOnly b) :
    wsOnly (a ++ b) := by
  intro c hc
  rcases List.mem_append.mp hc with h | h
  · exact ha c h
  · exact hb c h

theorem wsOnly_append_left {a b : Str} (h : wsOnly (a ++ b)) : wsOnly a :=
  fun c hc => h c (List.mem_append.mpr (Or.inl hc))

theorem wsOnly_append_right {a b : Str} (h : wsOnly (a ++ b)) : wsOnly b :=
  fun c hc => h c (List.mem_append.mpr (Or.inr hc))

theorem not_occurs_append {p x y : Str} (hx : ¬ Occurs p x) (hy : ¬ Occurs p y)
    (hstrad : ∀ k, 0 < k → k < p.length →
      ¬(p.take k <:+ x ∧ p.drop k <+: y)) : ¬ Occurs p (x ++ y) := by
  intro h
  rcases occurs_append_cases h with h' | h' | ⟨k, a, b, hk0, hk, hxx, hyy⟩
  · exact hx h'
  · exact hy h'
  · exact hstrad k hk0 hk ⟨⟨a, hxx.symm⟩, ⟨b, hyy.symm⟩⟩

theorem wsOnly_no_take_suffix {x p' : Str} (hw : wsOnly x) {p : Str}
    (hp : p = '<' :: p') {k : Nat} (hk : 0 < k) : ¬ (p.take k <:+ x) := by
  rintro ⟨a, ha⟩
  subst hp
  cases k with
  | zero => omega
  | succ k' =>
    have hmem : '<' ∈ x := by
      rw [← ha]
      simp
    have := hw '<' hmem
    simp [isWs] at this

theorem end_take_not_suffix_start :
    ∀ k, k < 12 → 0 < k →
      ¬ (tool_call_end_token.take k <:+ tool_call_start_token) := by decide

theorem open_take_not_suffix_start :
    ∀ k, k < 7 → 0 < k →
      ¬ (think_open_token.take k <:+ tool_call_start_token) := by decide

theorem close_take_not_suffix_start :
    ∀ k, k < 8 → 0 < k →
      ¬ (think_close_token.take k <:+ tool_call_start_token) := by decide

theorem open_drop_not_prefix_end :
    ∀ k, k < 7 → 0 < k →
      ¬ (think_open_token.drop k <+: tool_call_end_token) := by decide

theorem close_drop_not_prefix_end :
    ∀ k, k < 8 → 0 < k →
      ¬ (think_close_token.drop k <+: tool_call_end_token) := by decide

/-- No end marker occurs in `<tool_call>` followed by end-marker-free
text. -/
theorem not_occurs_end_start_append {q : Str}
    (hq : ¬ Occurs tool_call_end_token q) :
    ¬ Occurs tool_call_end_token (tool_call_start_token ++ q) := by
  apply not_occurs_append (splitOnce_none_iff.mp (by decide)) hq
  intro k hk0 hk h
  exact end_take_not_suffix_start k
    (by simpa [tool_call_end_token_length] using hk) hk0 h.1

/-- The text strictly before the closing marker of `m ++ </tool_call>`
contains no end marker (when `m` contains none). -/
theorem not_occurs_end_proper_prefix {m q r : Str}
    (hm : ¬ Occurs tool_call_end_token m)
    (heq : m ++ tool_call_end_token = q ++ r) (hr : r ≠ []) :
    ¬ Occurs tool_call_end_token q := by
  rintro ⟨a, b, hq⟩
  have hfull : m ++ tool_call_end_token ++ [] =
      a ++ tool_call_end_token ++ (b ++ r) := by
    rw [List.append_nil, heq, hq]
    simp [List.append_assoc]
  have hfirst := splitOnce_first (p := tool_call_end_token) (t := [])
    (by decide) (by decide) hm
  have hmin := splitOnce_min hfirst a (b ++ r) hfull
  have hlq := congrArg List.length hq
  have hle := congrArg List.length heq
  simp only [List.length_append, tool_call_end_token_length] at hlq hle
  have hrlen : 0 < r.length := List.length_pos.mpr hr
  omega

/-- Conditions on one block's inner text under which streaming can
process it: no embedded end marker, no narration delimiter, and a payload
the record builder accepts. -/
def BlockOk (m : Str) : Prop :=
  ¬ Occurs tool_call_end_token m ∧ ¬ Occurs think_open_token m ∧
  ¬ Occurs think_close_token m ∧ (buildCall (trimWs m)).isSome

theorem nothink_block_text {wb m : Str} (hwb : wsOnly wb) (hb : BlockOk m) :
    ¬ Occurs think_open_token (wb ++ blocksText [(m, [])]) ∧
    ¬ Occurs think_close_token (wb ++ blocksText [(m, [])]) := by
  have heq : wb ++ blocksText [(m, [])] =
      wb ++ (tool_call_start_token ++ (m ++ tool_call_end_token)) := by
    simp [blocksText, blockText]
  rw [heq]
  constructor
  · apply not_occurs_append (wsOnly_not_occurs hwb rfl)
    · apply not_occurs_append (splitOnce_none_iff.mp (by decide))
      · apply not_occurs_append hb.2.1 (splitOnce_none_iff.mp (by decide))
        intro k hk0 hk h
        exact open_drop_not_prefix_end k (by simpa using hk) hk0 h.2
      · intro k hk0 hk h
        exact open_take_not_suffix_start k (by simpa using hk) hk0 h.1
    · intro k hk0 _ h
      exact wsOnly_no_take_suffix hwb rfl hk0 h.1
  · apply not_occurs_append (wsOnly_not_occurs hwb rfl)
    · apply not_occurs_append (splitOnce_none_iff.mp (by decide))
      · apply not_occurs_append hb.2.2.1 (splitOnce_none_iff.mp (by decide))
        intro k hk0 hk h
        exact close_drop_not_prefix_end k (by simpa using hk) hk0 h.2
      · intro k hk0 hk h
        exact close_take_not_suffix_start k (by simpa using hk) hk0 h.1
    · intro k hk0 _ h
      exact wsOnly_no_take_suffix hwb rfl hk0 h.1

theorem splitOnce_end_block_tail {m t : Str}
    (hm : ¬ Occurs tool_call_end_token m) :
    splitOnce tool_call_end_token
      (tool_call_start_token ++ (m ++ tool_call_end_token ++ t)) =
      some (tool_call_start_token ++ m, t) := by
  have h := splitOnce_first (p := tool_call_end_token)
    (m := tool_call_start_token ++ m) (t := t)
    (by decide) (by decide) (not_occurs_end_start_append hm)
  have heq : (tool_call_start_token ++ m) ++ tool_call_end_token ++ t =
      tool_call_start_token ++ (m ++ tool_call_end_token ++ t) := by
    simp [List.append_assoc]
  rw [heq] at h
  exact h

/-- Extraction of a single whitespace-prefixed block. -/
theorem extract_one_block {wb m : Str} {tc : ToolCall} (hwb : wsOnly wb)
    (hb : BlockOk m) (htc : buildCall (trimWs m) = some tc) :
    extract_tool_calls (wb ++ (tool_call_start_token ++ m) ++ tool_call_end_token) =
      ⟨true, [tc], if rstripNl wb = [] then none else some (rstripNl wb)⟩ := by
  have harg : wb ++ (tool_call_start_token ++ m) ++ tool_call_end_token =
      wb ++ blocksText [(m, [])] := by
    simp [blocksText, blockText]
  rw [harg]
  exact extract_blocks_eq wb [(m, [])] hwb
    (by
      intro p hp
      rcases List.mem_cons.mp hp with rfl | hp'
      · exact ⟨fun c hc => absurd hc (List.not_mem_nil c), hb.1⟩
      · cases hp')
    (nothink_block_text hwb hb).1
    (nothink_block_text hwb hb).2
    (by intro h; cases h)
    (List.Forall₂.cons htc List.Forall₂.nil)

/-- Ghost position of a chunked stream: `outside` (remaining whitespace
`w`, then blocks `bs`), or `inside` a block `m` having consumed `q` of
`m ++ </tool_call>` with `r` still to come, then separator `w'` and the
remaining blocks. -/
inductive ChunkSt where
  | outside (w : Str) (bs : List (Str × Str))
  | inside (q r m w' : Str) (bs : List (Str × Str))

/-- Valid chunkings of the remaining text: fragments never split a start
marker across a buffer-clearing boundary and complete at most one block
each; the whole remaining text is fed. -/
inductive Chunks : ChunkSt → List Str → Prop where
  | nil : Chunks (.outside [] []) []
  | ws (d w2 : Str) (bs : List (Str × Str)) (fr : List Str) :
      Chunks (.outside w2 bs) fr →
      Chunks (.outside (d ++ w2) bs) (d :: fr)
  | enter (w q r m w' : Str) (bs : List (Str × Str)) (fr : List Str) :
      m ++ tool_call_end_token = q ++ r → r ≠ [] →
      Chunks (.inside q r m w' bs) fr →
      Chunks (.outside w ((m, w') :: bs))
        ((w ++ tool_call_start_token ++ q) :: fr)
  | mid (q r d r' m w' : Str) (bs : List (Str × Str)) (fr : List Str) :
      r = d ++ r' → r' ≠ [] →
      Chunks (.inside (q ++ d) r' m w' bs) fr →
      Chunks (.inside q r m w' bs) (d :: fr)
  | closeOut (q r m u w'' : Str) (bs : List (Str × Str)) (fr : List Str) :
      Chunks (.outside w'' bs) fr →
      Chunks (.inside q r m (u ++ w'') bs) ((r ++ u) :: fr)
  | closeIn (q r m w' q2 r2 m2 w'' : Str) (bs : List (Str × Str))
      (fr : List Str) :
      m2 ++ tool_call_end_token = q2 ++ r2 → r2 ≠ [] →
      Chunks (.inside q2 r2 m2 w'' bs) fr →
      Chunks (.inside q r m w' ((m2, w'') :: bs))
        ((r ++ w' ++ tool_call_start_token ++ q2) :: fr)
  | fullOut (w m u w'' : Str) (bs : List (Str × Str)) (fr : List Str) :
      Chunks (.outside w'' bs) fr →
      Chunks (.outside w ((m, u ++ w'') :: bs))
        ((w ++ blockText m ++ u) :: fr)
  | fullIn (w m w' q2 r2 m2 w'' : Str) (bs : List (Str × Str)) (fr : List Str) :
      m2 ++ tool_call_end_token = q2 ++ r2 → r2 ≠ [] →
      Chunks (.inside q2 r2 m2 w'' bs) fr →
      Chunks (.outside w ((m, w') :: (m2, w'') :: bs))
        ((w ++ blockText m ++ w' ++ tool_call_start_token ++ q2) :: fr)

/-- Well-formedness of the remaining structure. -/
def BlocksOk (bs : List (Str × Str)) : Prop :=
  ∀ p ∈ bs, wsOnly p.2 ∧ BlockOk p.1

def StWF : ChunkSt → Prop
  | .outside w bs => wsOnly w ∧ BlocksOk bs
  | .inside q r m w' bs =>
      BlockOk m ∧ m ++ tool_call_end_token = q ++ r ∧ r ≠ [] ∧
        wsOnly w' ∧ BlocksOk bs

/-- How the parser's buffer relates to the ghost position. -/
def StInv : ChunkSt → StreamState → Prop
  | .outside _ _, σ => wsOnly σ.buffer
  | .inside q _ _ _ _, σ =>
      ∃ wb, wsOnly wb ∧ σ.buffer = wb ++ tool_call_start_token ++ q

/-- The inner texts of the blocks still to be completed, in order. -/
def stBlocks : ChunkSt → List Str
  | .outside _ bs => bs.map Prod.fst
  | .inside _ _ m _ bs => m :: bs.map Prod.fst

/-- The tool-call fragment the stream emits for block `m` at index `e`. -/
def callFrag (e : Nat) (m : Str) : DeltaToolCall :=
  match buildCall (trimWs m) with
  | some tc => ⟨(e : Int), ⟨tc.function.name, tc.function.arguments⟩⟩
  | none => ⟨(e : Int), ⟨[], []⟩⟩

/-- The expected tool-call fragments for blocks `ms` starting at index
`e`. -/
def expectedCalls (e : Nat) : List Str → List DeltaToolCall
  | [] => []
  | m :: ms => callFrag e m :: expectedCalls (e + 1) ms

/-- The simulation: a validly chunked stream emits exactly one tool-call
fragment per remaining block, in order, with consecutive indices. -/
theorem chunks_sim {st : ChunkSt} {fr : List Str} (hch : Chunks st fr) :
    ∀ (σ : StreamState) (e : Nat), StWF st → (∀ x ∈ fr, NoThink x) →
      StInv st σ → StreamInv σ e →
      emittedCalls σ fr = expectedCalls e (stBlocks st) := by
  induction hch with
  | nil =>
    intro σ e _ _ _ _
    rfl
  | ws d w2 bs fr hch ih =>
    intro σ e hwf hnt hbuf hinv
    have hd : NoThink d := hnt d (List.mem_cons_self _ _)
    have hcur_ws : wsOnly (σ.buffer ++ strip_think_tags d) := by
      rw [strip_of_nothink hd]
      exact wsOnly_append hbuf (wsOnly_append_left hwf.1)
    have h1 : splitOnce tool_call_start_token
        (σ.buffer ++ strip_think_tags d) = none :=
      splitOnce_none_of_not_occurs (wsOnly_not_occurs hcur_ws rfl)
    rw [emittedCalls_cons, step_eq_no_start h1]
    exact ih _ e ⟨wsOnly_append_right hwf.1, hwf.2⟩
      (fun x hx => hnt x (List.mem_cons_of_mem _ hx))
      (fun c hc => absurd hc (List.not_mem_nil c)) hinv
  | enter w q r m w' bs fr heq hr hch ih =>
    intro σ e hwf hnt hbuf hinv
    obtain ⟨hw, hbs⟩ := hwf
    have hd := hnt _ (List.mem_cons_self _ _)
    have hwsb : wsOnly (σ.buffer ++ w) := wsOnly_append hbuf hw
    have hcur : σ.buffer ++ strip_think_tags (w ++ tool_call_start_token ++ q) =
        (σ.buffer ++ w) ++ tool_call_start_token ++ q := by
      rw [strip_of_nothink hd]
      simp [List.append_assoc]
    have h1 : splitOnce tool_call_start_token
        (σ.buffer ++ strip_think_tags (w ++ tool_call_start_token ++ q)) =
        some (σ.buffer ++ w, q) := by
      rw [hcur]
      exact splitOnce_start_ws hwsb
    have hBm : BlockOk m := (hbs (m, w') (List.mem_cons_self _ _)).2
    have hq : ¬ Occurs tool_call_end_token q :=
      not_occurs_end_proper_prefix hBm.1 heq hr
    have h2 : splitOnce tool_call_end_token (tool_call_start_token ++ q) = none :=
      splitOnce_none_of_not_occurs (not_occurs_end_start_append hq)
    rw [emittedCalls_cons, step_eq_no_end h1 h2]
    exact ih _ e
      ⟨hBm, heq, hr, (hbs (m, w') (List.mem_cons_self _ _)).1,
        fun p hp => hbs p (List.mem_cons_of_mem _ hp)⟩
      (fun x hx => hnt x (List.mem_cons_of_mem _ hx))
      ⟨[], fun c hc => absurd hc (List.not_mem_nil c), by simp⟩ hinv
  | mid q r d r' m w' bs fr hr_eq hr' hch ih =>
    intro σ e hwf hnt hbuf hinv
    obtain ⟨hBm, heq, hr, hw', hbs⟩ := hwf
    obtain ⟨wb, hwb, hbeq⟩ := hbuf
    have hd := hnt d (List.mem_cons_self _ _)
    have hcur : σ.buffer ++ strip_think_tags d =
        wb ++ tool_call_start_token ++ (q ++ d) := by
      rw [strip_of_nothink hd, hbeq]
      simp [List.append_assoc]
    have h1 : splitOnce tool_call_start_token (σ.buffer ++ strip_think_tags d) =
        some (wb, q ++ d) := by
      rw [hcur]
      exact splitOnce_start_ws hwb
    have heq' : m ++ tool_call_end_token = (q ++ d) ++ r' := by
      rw [heq, hr_eq]
      simp [List.append_assoc]
    have hqd : ¬ Occurs tool_call_end_token (q ++ d) :=
      not_occurs_end_proper_prefix hBm.1 heq' hr'
    have h2 : splitOnce tool_call_end_token
        (tool_call_start_token ++ (q ++ d)) = none :=
      splitOnce_none_of_not_occurs (not_occurs_end_start_append hqd)
    rw [emittedCalls_cons, step_eq_no_end h1 h2]
    exact ih _ e ⟨hBm, heq', hr', hw', hbs⟩
      (fun x hx => hnt x (List.mem_cons_of_mem _ hx))
      ⟨[], fun c hc => absurd hc (List.not_mem_nil c), by simp⟩ hinv
  | closeOut q r m u w'' bs fr hch ih =>
    intro σ e hwf hnt hbuf hinv
    obtain ⟨hBm, heq, hr, hw', hbs⟩ := hwf
    obtain ⟨wb, hwb, hbeq⟩ := hbuf
    have hd := hnt _ (List.mem_cons_self _ _)
    have hcur : σ.buffer ++ strip_think_tags (r ++ u) =
        wb ++ tool_call_start_token ++ (m ++ tool_call_end_token ++ u) := by
      rw [strip_of_nothink hd, hbeq]
      simp only [List.append_assoc]
      rw [← List.append_assoc m tool_call_end_token u, heq]
      simp [List.append_assoc]
    have h1 : splitOnce tool_call_start_token
        (σ.buffer ++ strip_think_tags (r ++ u)) =
        some (wb, m ++ tool_call_end_token ++ u) := by
      rw [hcur]
      exact splitOnce_start_ws hwb
    have h2 : splitOnce tool_call_end_token
        (tool_call_start_token ++ (m ++ tool_call_end_token ++ u)) =
        some (tool_call_start_token ++ m, u) :=
      splitOnce_end_block_tail hBm.1
    obtain ⟨tc, htc⟩ := Option.isSome_iff_exists.mp hBm.2.2.2
    have h3 : (extract_tool_calls
        (wb ++ (tool_call_start_token ++ m) ++ tool_call_end_token)).tool_calls =
        tc :: [] := by
      rw [extract_one_block hwb hBm htc]
    rw [emittedCalls_cons, step_eq_call h1 h2 h3]
    show (⟨if σ.current_tool_id = -1 then 0 else σ.current_tool_id,
        ⟨tc.function.name, tc.function.arguments⟩⟩ : DeltaToolCall) ::
        emittedCalls _ fr =
      callFrag e m :: expectedCalls (e + 1) (bs.map Prod.fst)
    have hcf : callFrag e m =
        ⟨(e : Int), ⟨tc.function.name, tc.function.arguments⟩⟩ := by
      unfold callFrag
      rw [htc]
    rw [streamInv_tid hinv, hcf]
    exact congrArg _ (ih _ (e + 1)
      ⟨wsOnly_append_right hw', hbs⟩
      (fun x hx => hnt x (List.mem_cons_of_mem _ hx))
      (wsOnly_append_left hw')
      ⟨fun hcon => absurd hcon (by omega), fun _ => by
        show (e : Int) + 1 = ((e + 1 : Nat) : Int)
        omega⟩)
  | closeIn q r m w' q2 r2 m2 w'' bs fr heq2 hr2 hch ih =>
    intro σ e hwf hnt hbuf hinv
    obtain ⟨hBm, heq, hr, hw', hbs⟩ := hwf
    obtain ⟨wb, hwb, hbeq⟩ := hbuf
    have hd := hnt _ (List.mem_cons_self _ _)
    have hcur : σ.buffer ++
        strip_think_tags (r ++ w' ++ tool_call_start_token ++ q2) =
        wb ++ tool_call_start_token ++ (m ++ tool_call_end_token ++
          (w' ++ tool_call_start_token ++ q2)) := by
      rw [strip_of_nothink hd, hbeq]
      simp only [List.append_assoc]
      rw [← List.append_assoc m tool_call_end_token, heq]
      simp [List.append_assoc]
    have h1 : splitOnce tool_call_start_token
        (σ.buffer ++ strip_think_tags (r ++ w' ++ tool_call_start_token ++ q2)) =
        some (wb, m ++ tool_call_end_token ++
          (w' ++ tool_call_start_token ++ q2)) := by
      rw [hcur]
      exact splitOnce_start_ws hwb
    have h2 : splitOnce tool_call_end_token
        (tool_call_start_token ++ (m ++ tool_call_end_token ++
          (w' ++ tool_call_start_token ++ q2))) =
        some (tool_call_start_token ++ m, w' ++ tool_call_start_token ++ q2) :=
      splitOnce_end_block_tail hBm.1
    obtain ⟨tc, htc⟩ := Option.isSome_iff_exists.mp hBm.2.2.2
    have h3 : (extract_tool_calls
        (wb ++ (tool_call_start_token ++ m) ++ tool_call_end_token)).tool_calls =
        tc :: [] := by
      rw [extract_one_block hwb hBm htc]
    rw [emittedCalls_cons, step_eq_call h1 h2 h3]
    show (⟨if σ.current_tool_id = -1 then 0 else σ.current_tool_id,
        ⟨tc.function.name, tc.function.arguments⟩⟩ : DeltaToolCall) ::
        emittedCalls _ fr =
      callFrag e m :: expectedCalls (e + 1) (m2 :: bs.map Prod.fst)
    have hcf : callFrag e m =
        ⟨(e : Int), ⟨tc.function.name, tc.function.arguments⟩⟩ := by
      unfold callFrag
      rw [htc]
    rw [streamInv_tid hinv, hcf]
    exact congrArg _ (ih _ (e + 1)
      ⟨(hbs (m2, w'') (List.mem_cons_self _ _)).2, heq2, hr2,
        (hbs (m2, w'') (List.mem_cons_self _ _)).1,
        fun p hp => hbs p (List.mem_cons_of_mem _ hp)⟩
      (fun x hx => hnt x (List.mem_cons_of_mem _ hx))
      ⟨w', hw', rfl⟩
      ⟨fun hcon => absurd hcon (by omega), fun _ => by
        show (e : Int) + 1 = ((e + 1 : Nat) : Int)
        omega⟩)
  | fullOut w m u w'' bs fr hch ih =>
    intro σ e hwf hnt hbuf hinv
    obtain ⟨hw, hbs⟩ := hwf
    have hBm : BlockOk m := (hbs (m, u ++ w'') (List.mem_cons_self _ _)).2
    have hww : wsOnly (u ++ w'') := (hbs (m, u ++ w'') (List.mem_cons_self _ _)).1
    have hd := hnt _ (List.mem_cons_self _ _)
    have hwsb : wsOnly (σ.buffer ++ w) := wsOnly_append hbuf hw
    have hcur : σ.buffer ++ strip_think_tags (w ++ blockText m ++ u) =
        (σ.buffer ++ w) ++ tool_call_start_token ++
          (m ++ tool_call_end_token ++ u) := by
      rw [strip_of_nothink hd]
      simp [blockText, List.append_assoc]
    have h1 : splitOnce tool_call_start_token
        (σ.buffer ++ strip_think_tags (w ++ blockText m ++ u)) =
        some (σ.buffer ++ w, m ++ tool_call_end_token ++ u) := by
      rw [hcur]
      exact splitOnce_start_ws hwsb
    have h2 : splitOnce tool_call_end_token
        (tool_call_start_token ++ (m ++ tool_call_end_token ++ u)) =
        some (tool_call_start_token ++ m, u) :=
      splitOnce_end_block_tail hBm.1
    obtain ⟨tc, htc⟩ := Option.isSome_iff_exists.mp hBm.2.2.2
    have h3 : (extract_tool_calls ((σ.buffer ++ w) ++
        (tool_call_start_token ++ m) ++ tool_call_end_token)).tool_calls =
        tc :: [] := by
      rw [extract_one_block hwsb hBm htc]
    rw [emittedCalls_cons, step_eq_call h1 h2 h3]
    show (⟨if σ.current_tool_id = -1 then 0 else σ.current_tool_id,
        ⟨tc.function.name, tc.function.arguments⟩⟩ : DeltaToolCall) ::
        emittedCalls _ fr =
      callFrag e m :: expectedCalls (e + 1) (bs.map Prod.fst)
    have hcf : callFrag e m =
        ⟨(e : Int), ⟨tc.function.name, tc.function.arguments⟩⟩ := by
      unfold callFrag
      rw [htc]
    rw [streamInv_tid hinv, hcf]
    exact congrArg _ (ih _ (e + 1)
      ⟨wsOnly_append_right hww, fun p hp => hbs p (List.mem_cons_of_mem _ hp)⟩
      (fun x hx => hnt x (List.mem_cons_of_mem _ hx))
      (wsOnly_append_left hww)
      ⟨fun hcon => absurd hcon (by omega), fun _ => by
        show (e : Int) + 1 = ((e + 1 : Nat) : Int)
        omega⟩)
  | fullIn w m w' q2 r2 m2 w'' bs fr heq2 hr2 hch ih =>
    intro σ e hwf hnt hbuf hinv
    obtain ⟨hw, hbs⟩ := hwf
    have hBm : BlockOk m := (hbs (m, w') (List.mem_cons_self _ _)).2
    have hw' : wsOnly w' := (hbs (m, w') (List.mem_cons_self _ _)).1
    have hmem2 : (m2, w'') ∈ (m, w') :: (m2, w'') :: bs :=
      List.mem_cons_of_mem _ (List.mem_cons_self _ _)
    have hBm2 : BlockOk m2 := (hbs (m2, w'') hmem2).2
    have hww'' : wsOnly w'' := (hbs (m2, w'') hmem2).1
    have hd := hnt _ (List.mem_cons_self _ _)
    have hwsb : wsOnly (σ.buffer ++ w) := wsOnly_append hbuf hw
    have hcur : σ.buffer ++ strip_think_tags
        (w ++ blockText m ++ w' ++ tool_call_start_token ++ q2) =
        (σ.buffer ++ w) ++ tool_call_start_token ++ (m ++ tool_call_end_token ++
          (w' ++ tool_call_start_token ++ q2)) := by
      rw [strip_of_nothink hd]
      simp [blockText, List.append_assoc]
    have h1 : splitOnce tool_call_start_token
        (σ.buffer ++ strip_think_tags
          (w ++ blockText m ++ w' ++ tool_call_start_token ++ q2)) =
        some (σ.buffer ++ w, m ++ tool_call_end_token ++
          (w' ++ tool_call_start_token ++ q2)) := by
      rw [hcur]
      exact splitOnce_start_ws hwsb
    have h2 : splitOnce tool_call_end_token
        (tool_call_start_token ++ (m ++ tool_call_end_token ++
          (w' ++ tool_call_start_token ++ q2))) =
        some (tool_call_start_token ++ m, w' ++ tool_call_start_token ++ q2) :=
      splitOnce_end_block_tail hBm.1
    obtain ⟨tc, htc⟩ := Option.isSome_iff_exists.mp hBm.2.2.2
    have h3 : (extract_tool_calls ((σ.buffer ++ w) ++
        (tool_call_start_token ++ m) ++ tool_call_end_token)).tool_calls =
        tc :: [] := by
      rw [extract_one_block hwsb hBm htc]
    rw [emittedCalls_cons, step_eq_call h1 h2 h3]
    show (⟨if σ.current_tool_id = -1 then 0 else σ.current_tool_id,
        ⟨tc.function.name, tc.function.arguments⟩⟩ : DeltaToolCall) ::
        emittedCalls _ fr =
      callFrag e m :: expectedCalls (e + 1) (m2 :: bs.map Prod.fst)
    have hcf : callFrag e m =
        ⟨(e : Int), ⟨tc.function.name, tc.function.arguments⟩⟩ := by
      unfold callFrag
      rw [htc]
    rw [streamInv_tid hinv, hcf]
    exact congrArg _ (ih _ (e + 1)
      ⟨hBm2, heq2, hr2, hww'',
        fun p hp => hbs p (List.mem_cons_of_mem _ (List.mem_cons_of_mem _ hp))⟩
      (fun x hx => hnt x (List.mem_cons_of_mem _ hx))
      ⟨w', hw', rfl⟩
      ⟨fun hcon => absurd hcon (by omega), fun _ => by
        show (e : Int) + 1 = ((e + 1 : Nat) : Int)
        omega⟩)

theorem expectedCalls_pairs :
    ∀ {bs : List (Str × Str)} {cs : List ToolCall},
      List.Forall₂ (fun p c => buildCall (trimWs p.1) = some c) bs cs →
      ∀ e, (expectedCalls e (bs.map Prod.fst)).map
          (fun c => (c.function.name, c.function.arguments)) =
        cs.map (fun t => (t.function.name, t.function.arguments)) := by
  intro bs cs h
  induction h with
  | nil =>
    intro e
    rfl
  | @cons a c l cs' hj htl ih =>
    intro e
    have hcf : callFrag e a.1 =
        ⟨(e : Int), ⟨c.function.name, c.function.arguments⟩⟩ := by
      unfold callFrag
      rw [hj]
    show (callFrag e a.1 :: expectedCalls (e + 1) (l.map Prod.fst)).map _ = _
    simp only [List.map_cons]
    rw [hcf]
    exact congrArg _ (ih (e + 1))

theorem blocksOk_calls {bs : List (Str × Str)} (hbs : BlocksOk bs) :
    ∃ cs, List.Forall₂ (fun p c => buildCall (trimWs p.1) = some c) bs cs := by
  induction bs with
  | nil => exact ⟨[], List.Forall₂.nil⟩
  | cons a l ih =>
    obtain ⟨tc, htc⟩ := Option.isSome_iff_exists.mp
      ((hbs a (List.mem_cons_self _ _)).2.2.2.2)
    obtain ⟨cs', hcs'⟩ := ih (fun p hp => hbs p (List.mem_cons_of_mem _ hp))
    exact ⟨tc :: cs', List.Forall₂.cons htc hcs'⟩

/-- C1 (counterexample): the trivial chunking — the whole two-block text
as a single fragment — streams only the *first* call (one completed-call
emission per fragment, and no further fragment ever arrives), while the
one-shot extraction returns both calls. -/
theorem trinity_C1_counterexample :
    (emittedCalls initState
        [("<tool_call>\x7b\"name\": \"a\", \"arguments\": \x7b\x7d\x7d</tool_call><tool_call>\x7b\"name\": \"b\", \"arguments\": \x7b\x7d\x7d</tool_call>").data]).map
        (fun c => (c.function.name, c.function.arguments)) ≠
      (extract_tool_calls
        ("<tool_call>\x7b\"name\": \"a\", \"arguments\": \x7b\x7d\x7d</tool_call><tool_call>\x7b\"name\": \"b\", \"arguments\": \x7b\x7d\x7d</tool_call>").data).tool_calls.map
        (fun t => (t.function.name, t.function.arguments)) := by decide

/-- C1 (amended): for a text of whitespace-separated well-formed blocks
(no narration delimiters anywhere, no end marker inside a block's inner
text, payloads the record builder accepts) and any chunking in which no
fragment boundary splits a start marker across a buffer-clearing point
and each fragment completes at most one block — with the whole text fed —
the streaming path emits tool-call fragments whose names and arguments
equal, in order, the call list of one-shot extraction on the full text,
with indices `0, 1, 2, …`. -/
theorem trinity_C1_stream_refines_oneshot (w0 : Str) (bs : List (Str × Str))
    (frags : List Str)
    (hch : Chunks (.outside w0 bs) frags)
    (hw0 : wsOnly w0)
    (hbs : BlocksOk bs)
    (hnt : ∀ x ∈ frags, NoThink x)
    (ht1 : ¬ Occurs think_open_token (w0 ++ blocksText bs))
    (ht2 : ¬ Occurs think_close_token (w0 ++ blocksText bs)) :
    (emittedCalls initState frags).map
        (fun c => (c.function.name, c.function.arguments)) =
      (extract_tool_calls (w0 ++ blocksText bs)).tool_calls.map
        (fun t => (t.function.name, t.function.arguments)) ∧
    (emittedCalls initState frags).map DeltaToolCall.index =
      (List.range (emittedCalls initState frags).length).map Int.ofNat := by
  have hinv0 : StreamInv initState 0 :=
    ⟨fun _ => Or.inl rfl, fun hpos => absurd hpos (by omega)⟩
  have hsim := chunks_sim hch initState 0 ⟨hw0, hbs⟩ hnt
    (fun c hc => absurd hc (List.not_mem_nil c)) hinv0
  refine ⟨?_, ?_⟩
  · rw [hsim]
    cases bs with
    | nil =>
      have hstrip : strip_think_tags (w0 ++ blocksText []) = w0 ++ blocksText [] := by
        show removeAll think_close_token (removeAll think_open_token _) = _
        rw [removeAll_of_not_occurs ht1, removeAll_of_not_occurs ht2]
      have hno : splitOnce tool_call_start_token
          (strip_think_tags (w0 ++ blocksText [])) = none := by
        rw [hstrip]
        apply splitOnce_none_of_not_occurs
        show ¬ Occurs tool_call_start_token (w0 ++ [])
        rw [List.append_nil]
        exact wsOnly_not_occurs hw0 rfl
      rw [extract_tool_calls_eq, hno]
      rfl
    | cons p bs' =>
      obtain ⟨cs, hcs⟩ := blocksOk_calls hbs
      rw [extract_blocks_eq w0 (p :: bs') hw0
        (fun q hq => ⟨(hbs q hq).1, (hbs q hq).2.1⟩) ht1 ht2
        (by intro hcon; cases hcon) hcs]
      exact expectedCalls_pairs hcs 0
  · rw [List.range_eq_range']
    exact runStream_indices frags initState 0 hinv0

theorem trinity_C1_witness :
    (emittedCalls initState
        [([] : Str) ++ tool_call_start_token ++ ("\x7b\"na").data,
         ("me\": \"a\", \"arguments\": \x7b\x7d\x7d</tool_").data,
         ("call>").data ++ ("\n").data ++ tool_call_start_token ++
           ("\x7b\"name\": \"b\"\x7d").data,
         tool_call_end_token ++ ([] : Str)]).map
        (fun c => (c.function.name, c.function.arguments)) =
      (extract_tool_calls (([] : Str) ++ blocksText
          [(("\x7b\"name\": \"a\", \"arguments\": \x7b\x7d\x7d").data, ("\n").data),
           (("\x7b\"name\": \"b\"\x7d").data, ([] : Str))])).tool_calls.map
        (fun t => (t.function.name, t.function.arguments)) ∧
    (emittedCalls initState
        [([] : Str) ++ tool_call_start_token ++ ("\x7b\"na").data,
         ("me\": \"a\", \"arguments\": \x7b\x7d\x7d</tool_").data,
         ("call>").data ++ ("\n").data ++ tool_call_start_token ++
           ("\x7b\"name\": \"b\"\x7d").data,
         tool_call_end_token ++ ([] : Str)]).map DeltaToolCall.index =
      (List.range (emittedCalls initState
        [([] : Str) ++ tool_call_start_token ++ ("\x7b\"na").data,
         ("me\": \"a\", \"arguments\": \x7b\x7d\x7d</tool_").data,
         ("call>").data ++ ("\n").data ++ tool_call_start_token ++
           ("\x7b\"name\": \"b\"\x7d").data,
         tool_call_end_token ++ ([] : Str)]).length).map Int.ofNat :=
  trinity_C1_stream_refines_oneshot ([] : Str)
    [(("\x7b\"name\": \"a\", \"arguments\": \x7b\x7d\x7d").data, ("\n").data),
     (("\x7b\"name\": \"b\"\x7d").data, ([] : Str))]
    _
    (Chunks.enter [] (("\x7b\"na").data)
      (("me\": \"a\", \"arguments\": \x7b\x7d\x7d</tool_call>").data)
      (("\x7b\"name\": \"a\", \"arguments\": \x7b\x7d\x7d").data) (("\n").data)
      [(("\x7b\"name\": \"b\"\x7d").data, ([] : Str))] _
      (by decide) (by decide)
      (Chunks.mid (("\x7b\"na").data)
        (("me\": \"a\", \"arguments\": \x7b\x7d\x7d</tool_call>").data)
        (("me\": \"a\", \"arguments\": \x7b\x7d\x7d</tool_").data)
        (("call>").data)
        (("\x7b\"name\": \"a\", \"arguments\": \x7b\x7d\x7d").data) (("\n").data)
        [(("\x7b\"name\": \"b\"\x7d").data, ([] : Str))] _
        (by decide) (by decide)
        (Chunks.closeIn
          ((("\x7b\"na").data) ++ (("me\": \"a\", \"arguments\": \x7b\x7d\x7d</tool_").data))
          (("call>").data)
          (("\x7b\"name\": \"a\", \"arguments\": \x7b\x7d\x7d").data) (("\n").data)
          (("\x7b\"name\": \"b\"\x7d").data) tool_call_end_token
          (("\x7b\"name\": \"b\"\x7d").data) ([] : Str) [] _
          rfl (by decide)
          (Chunks.closeOut (("\x7b\"name\": \"b\"\x7d").data) tool_call_end_token
            (("\x7b\"name\": \"b\"\x7d").data) ([] : Str) ([] : Str) [] []
            Chunks.nil))))
    (by decide)
    (by
      intro p hp
      simp only [List.mem_cons, List.not_mem_nil, or_false] at hp
      rcases hp with rfl | rfl
      · exact ⟨by decide, splitOnce_none_iff.mp (by decide),
          splitOnce_none_iff.mp (by decide), splitOnce_none_iff.mp (by decide),
          by decide⟩
      · exact ⟨by decide, splitOnce_none_iff.mp (by decide),
          splitOnce_none_iff.mp (by decide), splitOnce_none_iff.mp (by decide),
          by decide⟩)
    (by
      intro x hx
      simp only [List.mem_cons, List.not_mem_nil, or_false] at hx
      rcases hx with rfl | rfl | rfl | rfl
      · exact ⟨splitOnce_none_iff.mp (by decide), splitOnce_none_iff.mp (by decide)⟩
      · exact ⟨splitOnce_none_iff.mp (by decide), splitOnce_none_iff.mp (by decide)⟩
      · exact ⟨splitOnce_none_iff.mp (by decide), splitOnce_none_iff.mp (by decide)⟩
      · exact ⟨splitOnce_none_iff.mp (by decide), splitOnce_none_iff.mp (by decide)⟩)
    (splitOnce_none_iff.mp (by decide))
    (splitOnce_none_iff.mp (by decide))
